import Mathlib

/-!
Verification of the perfgo capture → canonicalize → archive pipeline.

This file gives a shallow embedding of the core functions of the perfgo
repository and proves properties of them:

* `perfscript` — the perf-script text parser (`parser.go`): line
  classification, stack-frame lexing, location/function/mapping interning,
  and sample merging/zero-padding (`Parse`, `parseStackFrame`, `addSample`,
  `stacksEqual`).
* `perf` — command building (`stat.go`) and binary hashing / verified
  transfer (`record.go`), together with models of the Go standard library
  primitives they use (SHA-256, base32, base64, shell escaping).
* `cli` — profile mapping-path rewriting (`artifacts.go`) and
  container-to-PID resolution (`attach.go`, `k8s/client.go`).

Go byte-strings are modelled as Lean `String` (all inputs of interest are
ASCII, where Go's byte indexing and Lean's character indexing agree);
machine integers are modelled as `Nat`/`Int` with explicit range checks
exactly where the Go code's `strconv` parsers enforce them.
-/

namespace gostr

/-- Whitespace as recognised by Go's `unicode.IsSpace` on the ASCII range,
used by `strings.Fields` and `strings.TrimSpace`. -/
def isSpaceGo (c : Char) : Bool :=
  c == ' ' || c == '\t' || c == '\n' || c == '\x0b' || c == '\x0c' || c == '\r'

/-- Helper for `fields`: splits a character list at whitespace, accumulating
the current (reversed) word. -/
def fieldsAux : List Char → List Char → List (List Char)
  | [], acc => if acc.isEmpty then [] else [acc.reverse]
  | c :: cs, acc =>
    if isSpaceGo c then
      if acc.isEmpty then fieldsAux cs [] else acc.reverse :: fieldsAux cs []
    else fieldsAux cs (c :: acc)

/-- Model of Go `strings.Fields`: splits around runs of whitespace; never
returns empty fields. -/
def fields (s : String) : List String :=
  (fieldsAux s.data []).map String.mk

/-- Model of Go `strings.TrimSpace` (ASCII whitespace). -/
def trimSpace (s : String) : String :=
  String.mk (((s.data.dropWhile isSpaceGo).reverse.dropWhile isSpaceGo).reverse)

/-- Model of Go `strings.Contains(s, sub)` for a single-character `sub`. -/
def containsChar (s : String) (c : Char) : Bool :=
  s.data.any (· == c)

/-- Model of Go `strings.HasPrefix`. -/
def hasPrefix (s pre : String) : Bool :=
  pre.data.isPrefixOf s.data

/-- Model of Go `strings.HasSuffix`. -/
def hasSuffix (s suf : String) : Bool :=
  suf.data.isSuffixOf s.data

/-- Model of Go `strings.TrimSuffix`. -/
def trimSuffix (s suf : String) : String :=
  if hasSuffix s suf then String.mk (s.data.take (s.data.length - suf.data.length)) else s

/-- Model of Go `strings.TrimPrefix`. -/
def trimPrefix (s pre : String) : String :=
  if hasPrefix s pre then String.mk (s.data.drop pre.data.length) else s

/-- Value of a hexadecimal digit character, if it is one. -/
def hexDigitVal? (c : Char) : Option Nat :=
  if '0' ≤ c ∧ c ≤ '9' then some (c.toNat - '0'.toNat)
  else if 'a' ≤ c ∧ c ≤ 'f' then some (c.toNat - 'a'.toNat + 10)
  else if 'A' ≤ c ∧ c ≤ 'F' then some (c.toNat - 'A'.toNat + 10)
  else none

/-- Value of a decimal digit character, if it is one. -/
def decDigitVal? (c : Char) : Option Nat :=
  if '0' ≤ c ∧ c ≤ '9' then some (c.toNat - '0'.toNat) else none

/-- Accumulate digits of the given base over a character list; `none` as soon
as a non-digit appears. -/
def digitsAcc (dv : Char → Option Nat) (base : Nat) (cs : List Char) (n : Nat) : Option Nat :=
  match cs with
  | [] => some n
  | c :: rest =>
    match dv c with
    | some d => digitsAcc dv base rest (n * base + d)
    | none => none

/-- Model of Go `strconv.ParseUint(s, 16, 64)`: nonempty hex digits, no sign,
no `0x` prefix, value below `2^64`. -/
def parseHexU64? (s : String) : Option Nat :=
  match s.data with
  | [] => none
  | cs =>
    match digitsAcc hexDigitVal? 16 cs 0 with
    | some n => if n < 2 ^ 64 then some n else none
    | none => none

/-- Model of Go `strconv.ParseInt(s, 10, 64)`: optional single sign, nonempty
decimal digits, value within the `int64` range. -/
def parseInt64? (s : String) : Option Int :=
  let digits : List Char → Option Nat := fun cs =>
    match cs with
    | [] => none
    | _ => digitsAcc decDigitVal? 10 cs 0
  match s.data with
  | '+' :: rest =>
    match digits rest with
    | some n => if n ≤ 2 ^ 63 - 1 then some (Int.ofNat n) else none
    | none => none
  | '-' :: rest =>
    match digits rest with
    | some n => if n ≤ 2 ^ 63 then some (-(Int.ofNat n : Int)) else none
    | none => none
  | cs =>
    match digits cs with
    | some n => if n ≤ 2 ^ 63 - 1 then some (Int.ofNat n) else none
    | none => none

/-- The character for a single decimal digit. -/
def digitChar (n : Nat) : Char := Char.ofNat ('0'.toNat + n)

/-- Fuel-driven decimal digit rendering, mirroring `Nat.toDigitsCore`; the
fuel is always at least the value plus one, so it never runs out. -/
def decDigitsAux : Nat → Nat → List Char → List Char
  | 0, _, acc => acc
  | fuel + 1, n, acc =>
    if n < 10 then digitChar n :: acc
    else decDigitsAux fuel (n / 10) (digitChar (n % 10) :: acc)

/-- Model of Go `fmt.Sprintf("%d", n)` for an unsigned value: decimal
rendering of a natural number. -/
def decRepr (n : Nat) : String := String.mk (decDigitsAux (n + 1) n [])

end gostr

section gostrFacts

open gostr

/-- Numeric value of a decimal digit string (used to invert `decDigitsAux`). -/
def decDigitsVal (cs : List Char) : Nat :=
  cs.foldl (fun a c => a * 10 + (c.toNat - '0'.toNat)) 0

theorem decDigitsVal_append_singleton (cs : List Char) (c : Char) :
    decDigitsVal (cs ++ [c]) = decDigitsVal cs * 10 + (c.toNat - '0'.toNat) := by
  simp [decDigitsVal, List.foldl_append]

theorem digitChar_toNat : ∀ n, n < 10 → (digitChar n).toNat = 48 + n := by decide

/-- Characterisation of `decDigitsAux`: with enough fuel it produces the
decimal digits of `n` in front of the accumulator, the digits are nonempty,
all are decimal digit characters, and their value is `n`. -/
theorem decDigitsAux_spec :
    ∀ fuel n acc, n < fuel →
      ∃ ds, decDigitsAux fuel n acc = ds ++ acc ∧ ds ≠ [] ∧
        (∀ c ∈ ds, 48 ≤ c.toNat ∧ c.toNat ≤ 57) ∧ decDigitsVal ds = n := by
  intro fuel
  induction fuel using Nat.strong_induction_on with
  | _ fuel ih =>
    intro n acc hn
    match fuel with
    | 0 => omega
    | fuel + 1 =>
      by_cases h10 : n < 10
      · refine ⟨[digitChar n], ?_, by simp, ?_, ?_⟩
        · simp [decDigitsAux, h10]
        · intro c hc
          simp at hc
          subst hc
          rw [digitChar_toNat n h10]
          omega
        · simp [decDigitsVal, digitChar_toNat n h10]
      · have hdiv : n / 10 < fuel := by
          have := Nat.div_lt_self (by omega : 0 < n) (by omega : 1 < 10)
          omega
        have hmod : n % 10 < 10 := Nat.mod_lt _ (by omega)
        obtain ⟨ds, hds, hne, hdig, hval⟩ :=
          ih fuel (by omega) (n / 10) (digitChar (n % 10) :: acc) hdiv
        refine ⟨ds ++ [digitChar (n % 10)], ?_, by simp, ?_, ?_⟩
        · simp [decDigitsAux, h10, hds]
        · intro c hc
          rcases List.mem_append.mp hc with h | h
          · exact hdig c h
          · simp at h
            subst h
            rw [digitChar_toNat _ hmod]
            omega
        · rw [decDigitsVal_append_singleton, hval]
          have h0 : ('0' : Char).toNat = 48 := by decide
          rw [digitChar_toNat _ hmod, h0]
          omega

/-- The digits of `decRepr n`: nonempty, all decimal digits, value `n`. -/
theorem decRepr_spec (n : Nat) :
    (decRepr n).data ≠ [] ∧ (∀ c ∈ (decRepr n).data, 48 ≤ c.toNat ∧ c.toNat ≤ 57) ∧
      decDigitsVal (decRepr n).data = n := by
  obtain ⟨ds, hds, hne, hdig, hval⟩ := decDigitsAux_spec (n + 1) n [] (by omega)
  simp only [decRepr, hds]
  simpa using ⟨hne, hdig, hval⟩

theorem decRepr_injective {m n : Nat} (h : decRepr m = decRepr n) : m = n := by
  have hm := (decRepr_spec m).2.2
  have hn := (decRepr_spec n).2.2
  rw [h] at hm
  omega

theorem colon_not_mem_decRepr (n : Nat) : ':' ∉ (decRepr n).data := by
  intro hmem
  have h := (decRepr_spec n).2.1 ':' hmem
  have h1 : (':' : Char).toNat = 58 := by decide
  omega

end gostrFacts

/-! ## The perf-script parser (`perfscript/parser.go`) -/

namespace perfscript

/-- `profile.ValueType`: one per distinct event name, unit always "count". -/
structure ValueType where
  type : String
  unit : String
deriving Repr, DecidableEq

/-- `profile.Sample`: the stack as the ordered list of Location IDs (Go holds
`[]*profile.Location` pointers; locations are interned and never mutated, so
their IDs identify them), plus the per-event value vector. -/
structure Sample where
  locationIDs : List Nat
  value : List Int
deriving Repr, DecidableEq

/-- `profile.Function` as created by `getOrCreateFunction`. -/
structure Function where
  id : Nat
  name : String
deriving Repr, DecidableEq

/-- `profile.Mapping` as created by `getOrCreateMapping` (`Start`/`Limit`
filled in by `finalizeMapping`). -/
structure Mapping where
  id : Nat
  file : String
  start : Nat
  limit : Nat
deriving Repr, DecidableEq

/-- `profile.Location` as created by `parseStackFrame`; the mapping reference
is by Mapping ID (`none` when the frame had no parenthesised path), and
`Line[0].Function` is referenced by Function ID. -/
structure Location where
  id : Nat
  mapping : Option Nat
  address : Nat
  functionID : Nat
deriving Repr, DecidableEq

/-- The parser state: the profile under construction (`SampleType`, `Sample`,
`Location`, `Function`, `Mapping` slices) plus the three dedup maps of the Go
`Parser` struct, modelled as association lists (insertion only happens when
the key is absent, so first-match lookup agrees with the Go map). -/
structure Parser where
  sampleTypes : List ValueType
  samples : List Sample
  locations : List Location
  functions : List Function
  mappings : List Mapping
  locIndex : List (String × Nat)
  funcIndex : List (String × Nat)
  mapIndex : List (String × Nat)
deriving Repr, DecidableEq

/-- The fresh parser produced by `New()` with the empty profile that `Parse`
initialises. -/
def Parser.init : Parser :=
  { sampleTypes := [], samples := [], locations := [], functions := [], mappings := [],
    locIndex := [], funcIndex := [], mapIndex := [] }

/-- First-match association-list lookup (the Go map read). -/
def lookupIdx (l : List (String × Nat)) (k : String) : Option Nat :=
  (l.find? (fun p => p.1 == k)).map (·.2)

/-- `getOrCreateFunction`: dedup by name; a new function gets
ID `len(profile.Function) + 1`. -/
def getOrCreateFunction (p : Parser) (name : String) : Parser × Nat :=
  match lookupIdx p.funcIndex name with
  | some fid => (p, fid)
  | none =>
    let fid := p.functions.length + 1
    ({ p with functions := p.functions ++ [{ id := fid, name := name }],
              funcIndex := (name, fid) :: p.funcIndex }, fid)

/-- `getOrCreateMapping`: dedup by file path; a new mapping gets
ID `len(profile.Mapping) + 1` and zero bounds until `finalizeMapping`. -/
def getOrCreateMapping (p : Parser) (filename : String) : Parser × Nat :=
  match lookupIdx p.mapIndex filename with
  | some mid => (p, mid)
  | none =>
    let mid := p.mappings.length + 1
    ({ p with mappings := p.mappings ++ [{ id := mid, file := filename, start := 0, limit := 0 }],
              mapIndex := (filename, mid) :: p.mapIndex }, mid)

/-- The location dedup key `fmt.Sprintf("%s:%d", funcName, addr)`. -/
def locKey (funcName : String) (addr : Nat) : String :=
  funcName ++ ":" ++ gostr.decRepr addr

/-- Index (counted in characters, which agrees with Go's byte index on ASCII
symbol tokens) of the last occurrence of `c`, if any. -/
def lastIndexAux (cs : List Char) (c : Char) (i : Nat) (best : Option Nat) : Option Nat :=
  match cs with
  | [] => best
  | x :: rest => lastIndexAux rest c (i + 1) (if x == c then some i else best)

/-- Model of Go `strings.LastIndex(s, string(c))` (as an `Option`;
Go returns `-1` for `none`). -/
def lastIndexOfChar (s : String) (c : Char) : Option Nat :=
  lastIndexAux s.data c 0 none

/-- The symbol-token munging of `parseStackFrame` lines 122–127: remove the
suffix from the last `+` on, but only when that `+` is not the first
character (`if idx := strings.LastIndex(funcName, "+"); idx > 0`). -/
def stripOffset (funcName : String) : String :=
  match lastIndexOfChar funcName '+' with
  | some idx => if idx > 0 then String.mk (funcName.data.take idx) else funcName
  | none => funcName

/-- The parenthesised-path scan of `parseStackFrame` lines 129–137: first
token (from the third field on) wrapped in `(`…`)`, braces stripped. -/
def extractPath : List String → String
  | [] => ""
  | p :: rest =>
    if gostr.hasPrefix p "(" && gostr.hasSuffix p ")" then
      gostr.trimSuffix (gostr.trimPrefix p "(") ")"
    else extractPath rest

/-- The lexing result of one stack-frame line. -/
structure Frame where
  address : Nat
  funcName : String
  binaryPath : String
deriving Repr, DecidableEq

/-- The pure lexing part of `parseStackFrame` (lines 109–137): fewer than two
fields means the frame is skipped (`nil`); an unparsable hex address becomes
address 0; the symbol token is stripped of its `+` suffix. -/
def parseFrameLine (line : String) : Option Frame :=
  let parts := gostr.fields line
  if parts.length < 2 then none
  else
    some { address := (gostr.parseHexU64? (parts.getD 0 "")).getD 0,
           funcName := stripOffset (parts.getD 1 ""),
           binaryPath := extractPath (parts.drop 2) }

/-- The mapping step of `parseStackFrame` (lines 139–144): a mapping is
created (or found) only for a nonempty parenthesised path. -/
def internMapping (p : Parser) (binaryPath : String) : Parser × Option Nat :=
  if binaryPath ≠ "" then
    ((getOrCreateMapping p binaryPath).1, some (getOrCreateMapping p binaryPath).2)
  else (p, none)

/-- The location step of `parseStackFrame` (lines 149–165): look the location
up under `locKey`; if absent, create it with ID `len(profile.Location) + 1`
referencing the given mapping and function. -/
def internLoc (p : Parser) (mid : Option Nat) (fid : Nat) (fn : String) (addr : Nat) :
    Parser × Nat :=
  match lookupIdx p.locIndex (locKey fn addr) with
  | some lid => (p, lid)
  | none =>
    let lid := p.locations.length + 1
    ({ p with
        locations := p.locations ++
          [{ id := lid, mapping := mid, address := addr, functionID := fid }],
        locIndex := (locKey fn addr, lid) :: p.locIndex }, lid)

/-- The interning part of `parseStackFrame` (lines 139–167): get-or-create
the mapping (only for a nonempty path), the function, and the location;
returns the location's ID. -/
def internFrame (p : Parser) (f : Frame) : Parser × Nat :=
  let pm := internMapping p f.binaryPath
  let pf := getOrCreateFunction pm.1 f.funcName
  internLoc pf.1 pm.2 pf.2 f.funcName f.address

/-- `parseStackFrame`: lexing then interning; `none` models the `nil` return
for a too-short line. -/
def parseStackFrame (p : Parser) (line : String) : Option (Parser × Nat) :=
  (parseFrameLine line).map (internFrame p)

/-- First index satisfying the predicate, if any — the Go pattern
`for idx := range xs { if p(xs[idx]) { ... break } }`. -/
def findIdxA {α : Type _} (p : α → Bool) : List α → Option Nat
  | [] => none
  | a :: as => if p a then some 0 else (findIdxA p as).map (· + 1)

/-- `stacksEqual`: length check then element-wise ID comparison. -/
def stacksEqual (a b : List Nat) : Bool :=
  if a.length != b.length then false
  else (List.zip a b).all (fun q => q.1 == q.2)

/-- The event-type registration step of `addSample` (lines 219–235): look the
event up in `SampleType`; if absent, append a new sample type and zero-pad
every existing sample's value vector; returns the event's value index. -/
def registerType (p : Parser) (eventType : String) : Parser × Nat :=
  match findIdxA (fun vt => vt.type == eventType) p.sampleTypes with
  | some i => (p, i)
  | none =>
    ({ p with sampleTypes := p.sampleTypes ++ [{ type := eventType, unit := "count" }],
              samples := p.samples.map (fun s => { s with value := s.value ++ [0] }) },
     p.sampleTypes.length)

/-- Reduction of an unbounded integer to the Go `int64` it is stored as:
two's-complement wrap-around into the interval from `-2 ^ 63`
(inclusive) to `2 ^ 63` (exclusive). -/
def wrap64 (n : Int) : Int := (n + 2 ^ 63) % 2 ^ 64 - 2 ^ 63

/-- The value update of the merge branch,
`existingSample.Value[sampleIdx] += count`: `[]int64` addition, so the sum
wraps around on `int64` overflow. -/
def mergeValue (old : Sample) (sampleIdx : Nat) (count : Int) : Sample :=
  { old with
      value := old.value.set sampleIdx (wrap64 (old.value.getD sampleIdx 0 + count)) }

/-- The merge branch (lines 238–244): `existingSample.Value[sampleIdx] += count`. -/
def mergeAt (p1 : Parser) (j sampleIdx : Nat) (count : Int) : Parser :=
  { p1 with samples :=
      p1.samples.set j (mergeValue (p1.samples.getD j (Sample.mk [] [])) sampleIdx count) }

/-- The append branch (lines 246–253): fresh sample, zero vector sized to
`SampleType`, only this event's slot set. -/
def appendNew (p1 : Parser) (stack : List Nat) (sampleIdx : Nat) (count : Int) : Parser :=
  { p1 with samples := p1.samples ++
      [{ locationIDs := stack,
         value := (List.replicate p1.sampleTypes.length (0 : Int)).set sampleIdx count }] }

def mergeSample (p1 : Parser) (stack : List Nat) (sampleIdx : Nat) (count : Int) : Parser :=
  match findIdxA (fun s => stacksEqual s.locationIDs stack) p1.samples with
  | some j => mergeAt p1 j sampleIdx count
  | none => appendNew p1 stack sampleIdx count

/-- `addSample`: drop empty stacks and zero counts; register the event type
if new, zero-padding every existing sample; merge into the first sample with
an equal stack, else append a fresh zero-initialised sample. -/
def addSample (p : Parser) (stack : List Nat) (eventType : String) (count : Int) : Parser :=
  if stack.length == 0 || count == 0 then p
  else
    mergeSample (registerType p eventType).1 stack (registerType p eventType).2 count

/-- The classification of a header line in the `Parse` loop (line 59):
contains a colon and is not indented by a tab or four spaces. -/
def isHeaderLine (line : String) : Bool :=
  gostr.containsChar line ':' && !(gostr.hasPrefix line "\t") && !(gostr.hasPrefix line "    ")

/-- The classification of a frame line in the `Parse` loop (line 84). -/
def isFrameLine (line : String) : Bool :=
  gostr.hasPrefix line "\t" || gostr.hasPrefix line "    "

/-- A header line on which `Parse` aborts: fewer than two fields, or a
second-to-last field that does not parse as a base-10 `int64`. -/
def badHeader (line : String) : Bool :=
  isHeaderLine line && gostr.trimSpace line != "" &&
    (decide ((gostr.fields line).length < 2) ||
      ((gostr.parseInt64? (gostr.trimSpace
          ((gostr.fields line).getD ((gostr.fields line).length - 2) ""))).isNone))

/-- The per-line loop state of `Parse`: the parser plus `currentStack`,
`currentEventType` and `currentCount` (Go zero values at entry). -/
structure LoopState where
  parser : Parser
  currentStack : List Nat
  currentEventType : String
  currentCount : Int
deriving Repr, DecidableEq

def LoopState.init : LoopState :=
  { parser := Parser.init, currentStack := [], currentEventType := "", currentCount := 0 }

/-- One iteration of the `Parse` scan loop (lines 51–90). -/
def step (ls : LoopState) (line : String) : Except String LoopState :=
  if gostr.trimSpace line == "" then .ok ls
  else if isHeaderLine line then
    let p' := if ls.currentStack.length > 0 then
        addSample ls.parser ls.currentStack ls.currentEventType ls.currentCount
      else ls.parser
    let parts := gostr.fields line
    if parts.length < 2 then .error ("invalid event line: " ++ line)
    else
      let ev := gostr.trimSuffix (gostr.trimSpace (parts.getLastD "")) ":"
      match gostr.parseInt64? (gostr.trimSpace (parts.getD (parts.length - 2) "")) with
      | some v =>
        .ok { parser := p', currentStack := [], currentEventType := ev, currentCount := v }
      | none => .error ("invalid count: " ++ parts.getD 1 "")
  else if isFrameLine line then
    match parseFrameLine line with
    | some f =>
      let r := internFrame ls.parser f
      .ok { ls with parser := r.1, currentStack := ls.currentStack ++ [r.2] }
    | none => .ok ls
  else .ok ls

/-- `finalizeMapping`: every mapping gets `Start = 0`,
`Limit = ^uint64(0) = 2^64 - 1`. -/
def finalizeMappings (p : Parser) : Parser :=
  { p with mappings := p.mappings.map (fun m => { m with start := 0, limit := 2 ^ 64 - 1 }) }

/-- `Parse` over the scanned lines: run the loop, flush the last open stack,
finalize mapping bounds. -/
def Parse (lines : List String) : Except String Parser :=
  match lines.foldlM step LoopState.init with
  | .error e => .error e
  | .ok ls =>
    let p := if ls.currentStack.length > 0 then
        addSample ls.parser ls.currentStack ls.currentEventType ls.currentCount
      else ls.parser
    .ok (finalizeMappings p)

/-- Model of `bufio.Scanner` with `ScanLines`: drop a final `\r` of each
line. -/
def dropCR (s : String) : String :=
  if s.data.getLast? = some '\r' then String.mk s.data.dropLast else s

/-- Split at each newline, keeping empty lines. -/
def splitLinesAux : List Char → List Char → List String
  | [], acc => [String.mk acc.reverse]
  | c :: rest, acc =>
    if c = '\n' then String.mk acc.reverse :: splitLinesAux rest []
    else splitLinesAux rest (c :: acc)

/-- The lines delivered by `bufio.Scanner`: empty input gives no lines, and a
trailing newline does not produce a final empty line. -/
def scanLines (s : String) : List String :=
  if s.data.isEmpty then []
  else
    let ls := splitLinesAux s.data []
    (if s.data.getLast? = some '\n' then ls.dropLast else ls).map dropCR

/-- `Parse` on raw input text. -/
def ParseString (input : String) : Except String Parser :=
  Parse (scanLines input)

end perfscript

/-! ## Generic helper lemmas -/

section helperLemmas

variable {α : Type _}

theorem find?_append_of_some {p : α → Bool} {l l' : List α} {x : α}
    (h : l.find? p = some x) : (l ++ l').find? p = some x := by
  induction l with
  | nil => simp [List.find?] at h
  | cons a as ih =>
    by_cases hpa : p a
    · simp [List.find?, hpa] at h ⊢
      exact h
    · simp only [List.find?, hpa] at h
      simp only [List.cons_append, List.find?, hpa]
      exact ih h

theorem find?_append_of_none {p : α → Bool} {l l' : List α}
    (h : l.find? p = none) : (l ++ l').find? p = l'.find? p := by
  induction l with
  | nil => simp
  | cons a as ih =>
    by_cases hpa : p a
    · simp [List.find?, hpa] at h
    · simp only [List.find?, hpa] at h
      simp only [List.cons_append, List.find?, hpa]
      exact ih h

theorem length_filter_set_eq {p : α → Bool} {l : List α} {j : Nat} {x d : α}
    (hj : j < l.length) (hpx : p x = p (l.getD j d)) :
    ((l.set j x).filter p).length = (l.filter p).length := by
  induction l generalizing j with
  | nil => simp at hj
  | cons a as ih =>
    cases j with
    | zero =>
      simp only [List.getD_cons_zero] at hpx
      simp only [List.set_cons_zero]
      by_cases hpa : p a
      · simp [List.filter_cons, hpa, hpx ▸ hpa]
      · have hx : p x = false := by
          rw [hpx]
          exact Bool.not_eq_true _ ▸ (by simpa using hpa)
        simp [List.filter_cons, hx, (by simpa using hpa : p a = false)]
    | succ j' =>
      simp only [List.length_cons, Nat.succ_lt_succ_iff] at hj
      simp only [List.getD_cons_succ] at hpx
      simp only [List.set_cons_succ, List.filter_cons]
      by_cases hpa : p a
      · simp only [hpa]
        simp [ih hj hpx]
      · simp only [(by simpa using hpa : p a = false)]
        exact ih hj hpx

end helperLemmas

namespace perfscript

theorem stacksEqual_cons (x y : Nat) (xs ys : List Nat) :
    stacksEqual (x :: xs) (y :: ys) = ((x == y) && stacksEqual xs ys) := by
  unfold stacksEqual
  by_cases hl : xs.length = ys.length
  · rw [if_neg (by simp [hl]), if_neg (by simp [hl])]
    simp
  · rw [if_pos (by simp [hl]), if_pos (by simp [hl])]
    simp

theorem stacksEqual_iff : ∀ a b : List Nat, stacksEqual a b = true ↔ a = b := by
  intro a
  induction a with
  | nil =>
    intro b
    cases b <;> simp [stacksEqual]
  | cons x xs ih =>
    intro b
    cases b with
    | nil => simp [stacksEqual]
    | cons y ys =>
      rw [stacksEqual_cons]
      simp [ih ys]

end perfscript

section locKeyInjective

theorem string_mk_inj {a b : List Char} (h : String.mk a = String.mk b) : a = b := by
  injection h

/-- Splitting a character list at a separator character that occurs in
neither right-hand part is unambiguous. -/
theorem append_sep_inj {c : Char} :
    ∀ (a1 : List Char) {b1 : List Char} (a2 : List Char) {b2 : List Char},
      a1 ++ c :: b1 = a2 ++ c :: b2 → c ∉ b1 → c ∉ b2 → a1 = a2 ∧ b1 = b2 := by
  intro a1
  induction a1 with
  | nil =>
    intro b1 a2 b2 h h1 h2
    cases a2 with
    | nil =>
      simp only [List.nil_append] at h
      exact ⟨rfl, by injection h⟩
    | cons x a2' =>
      simp only [List.nil_append, List.cons_append] at h
      injection h with hx htl
      exfalso
      apply h1
      rw [htl]
      exact List.mem_append.mpr (Or.inr (List.mem_cons_self _ _))
  | cons x a1' ih =>
    intro b1 a2 b2 h h1 h2
    cases a2 with
    | nil =>
      simp only [List.cons_append, List.nil_append] at h
      injection h with hx htl
      exfalso
      apply h2
      rw [← htl]
      subst hx
      exact List.mem_append.mpr (Or.inr (List.mem_cons_self _ _))
    | cons y a2' =>
      simp only [List.cons_append] at h
      injection h with hx htl
      obtain ⟨he, hb⟩ := ih a2' htl h1 h2
      exact ⟨by rw [hx, he], hb⟩

theorem locKey_inj {f1 f2 : String} {a1 a2 : Nat}
    (h : perfscript.locKey f1 a1 = perfscript.locKey f2 a2) : f1 = f2 ∧ a1 = a2 := by
  unfold perfscript.locKey at h
  have hdata : f1.data ++ ':' :: (gostr.decRepr a1).data
      = f2.data ++ ':' :: (gostr.decRepr a2).data := by
    have := congrArg String.data h
    simpa [String.data_append] using this
  obtain ⟨hf, hd⟩ := append_sep_inj f1.data f2.data hdata
    (colon_not_mem_decRepr a1) (colon_not_mem_decRepr a2)
  refine ⟨?_, ?_⟩
  · cases f1
    cases f2
    exact congrArg String.mk hf
  · apply decRepr_injective
    have h1 : gostr.decRepr a1 = String.mk (gostr.decRepr a1).data := rfl
    have h2 : gostr.decRepr a2 = String.mk (gostr.decRepr a2).data := rfl
    rw [h1, h2, hd]

end locKeyInjective

namespace perfscript

/-! ### Resolution of interned IDs and the table invariant -/

/-- Resolve a Function ID in a function table (`Line[0].Function.Name`). -/
def funcNameIn (fs : List Function) (fid : Nat) : Option String :=
  (fs.find? (fun f => f.id == fid)).map (·.name)

/-- Resolve a Location ID in a location table. -/
def locIn (ls : List Location) (lid : Nat) : Option Location :=
  ls.find? (fun l => l.id == lid)

def funcNameOf (p : Parser) (fid : Nat) : Option String := funcNameIn p.functions fid

def locOf (p : Parser) (lid : Nat) : Option Location := locIn p.locations lid

/-- Resolve one Location ID to its `(function name, address)` pair. -/
def frameKeyOf (p : Parser) (lid : Nat) : Option (String × Nat) :=
  match locOf p lid with
  | some l =>
    match funcNameOf p l.functionID with
    | some fn => some (fn, l.address)
    | none => none
  | none => none

/-- Resolve an ordered Location-ID sequence to its `(function name, address)`
sequence. -/
def resolveStack (p : Parser) : List Nat → Option (List (String × Nat))
  | [] => some []
  | lid :: rest =>
    match frameKeyOf p lid, resolveStack p rest with
    | some fk, some fks => some (fk :: fks)
    | _, _ => none

/-- Interning of a whole stack of frames, as done by the `Parse` loop calling
`parseStackFrame` once per frame line and appending the returned location. -/
def internStack (p : Parser) : List Frame → Parser × List Nat
  | [] => (p, [])
  | f :: fs =>
    let r := internFrame p f
    let rest := internStack r.1 fs
    (rest.1, r.2 :: rest.2)

/-- The `(function name, address)` projection of a frame list — the identity
of a stack in the sense of the location dedup key. -/
def frameKeys (fs : List Frame) : List (String × Nat) :=
  fs.map (fun f => (f.funcName, f.address))

/-- Table extension: the parser's function/location tables only grow, and
dedup-map hits persist. -/
structure TExt (p q : Parser) : Prop where
  functions : ∃ gs, q.functions = p.functions ++ gs
  locations : ∃ gs, q.locations = p.locations ++ gs
  locLookup : ∀ k v, lookupIdx p.locIndex k = some v → lookupIdx q.locIndex k = some v
  funcLookup : ∀ k v, lookupIdx p.funcIndex k = some v → lookupIdx q.funcIndex k = some v

/-- The well-formedness invariant of the interning tables: IDs stay below the
table length (new IDs `length + 1` are fresh), and the dedup maps resolve to
entries carrying the key they were interned under. -/
structure TableInv (p : Parser) : Prop where
  funcs_le : ∀ f ∈ p.functions, f.id ≤ p.functions.length
  locs_le : ∀ l ∈ p.locations, l.id ≤ p.locations.length
  funcIndex_ok : ∀ name fid, lookupIdx p.funcIndex name = some fid →
    funcNameOf p fid = some name
  locIndex_ok : ∀ fn addr lid, lookupIdx p.locIndex (locKey fn addr) = some lid →
    ∃ loc, locOf p lid = some loc ∧ loc.address = addr ∧
      funcNameOf p loc.functionID = some fn

theorem TExt.refl (p : Parser) : TExt p p :=
  ⟨⟨[], by simp⟩, ⟨[], by simp⟩, fun _ _ h => h, fun _ _ h => h⟩

theorem TExt.trans {p q r : Parser} (h1 : TExt p q) (h2 : TExt q r) : TExt p r := by
  obtain ⟨⟨gs1, hf1⟩, ⟨hs1, hl1⟩, hk1, hq1⟩ := h1
  obtain ⟨⟨gs2, hf2⟩, ⟨hs2, hl2⟩, hk2, hq2⟩ := h2
  exact ⟨⟨gs1 ++ gs2, by rw [hf2, hf1, List.append_assoc]⟩,
    ⟨hs1 ++ hs2, by rw [hl2, hl1, List.append_assoc]⟩,
    fun k v h => hk2 k v (hk1 k v h), fun k v h => hq2 k v (hq1 k v h)⟩

theorem lookupIdx_cons (k' : String) (v : Nat) (l : List (String × Nat)) (k : String) :
    lookupIdx ((k', v) :: l) k = if k' = k then some v else lookupIdx l k := by
  simp only [lookupIdx, List.find?]
  by_cases h : k' = k
  · simp [h]
  · simp [h, (by simpa using h : (k' == k) = false)]

theorem lookupIdx_insert_self (k : String) (v : Nat) (l : List (String × Nat)) :
    lookupIdx ((k, v) :: l) k = some v := by
  rw [lookupIdx_cons]
  simp

theorem lookupIdx_insert_preserve {l : List (String × Nat)} {k k' : String} {v v' : Nat}
    (habs : lookupIdx l k' = none) (h : lookupIdx l k = some v) :
    lookupIdx ((k', v') :: l) k = some v := by
  rw [lookupIdx_cons]
  by_cases hk : k' = k
  · subst hk
    rw [habs] at h
    cases h
  · simp [hk, h]

theorem funcNameIn_append_of_some {fs gs : List Function} {fid : Nat} {n : String}
    (h : funcNameIn fs fid = some n) : funcNameIn (fs ++ gs) fid = some n := by
  unfold funcNameIn at h ⊢
  cases hf : fs.find? (fun f => f.id == fid) with
  | none => rw [hf] at h; cases h
  | some f =>
    rw [hf] at h
    rw [find?_append_of_some hf]
    exact h

theorem locIn_append_of_some {ls gs : List Location} {lid : Nat} {loc : Location}
    (h : locIn ls lid = some loc) : locIn (ls ++ gs) lid = some loc :=
  find?_append_of_some h

/-- A fresh ID `length + 1` resolves to the appended entry. -/
theorem funcNameIn_append_fresh {fs : List Function} {f : Function}
    (hle : ∀ g ∈ fs, g.id ≤ fs.length) (hf : f.id = fs.length + 1) :
    funcNameIn (fs ++ [f]) f.id = some f.name := by
  unfold funcNameIn
  have hnone : fs.find? (fun g => g.id == f.id) = none := by
    rw [List.find?_eq_none]
    intro g hg
    have := hle g hg
    simp only [beq_iff_eq]
    omega
  rw [find?_append_of_none hnone]
  simp [List.find?]

theorem locIn_append_fresh {ls : List Location} {l : Location}
    (hle : ∀ g ∈ ls, g.id ≤ ls.length) (hl : l.id = ls.length + 1) :
    locIn (ls ++ [l]) l.id = some l := by
  unfold locIn
  have hnone : ls.find? (fun g => g.id == l.id) = none := by
    rw [List.find?_eq_none]
    intro g hg
    have := hle g hg
    simp only [beq_iff_eq]
    omega
  rw [find?_append_of_none hnone]
  simp [List.find?]

end perfscript

namespace perfscript

theorem getOrCreateMapping_inv {p : Parser} (hInv : TableInv p) (file : String) :
    TableInv (getOrCreateMapping p file).1 := by
  unfold getOrCreateMapping
  cases hlk : lookupIdx p.mapIndex file with
  | some mid => exact hInv
  | none => exact ⟨hInv.funcs_le, hInv.locs_le, hInv.funcIndex_ok, hInv.locIndex_ok⟩

theorem getOrCreateMapping_fields (p : Parser) (file : String) :
    (getOrCreateMapping p file).1.functions = p.functions ∧
    (getOrCreateMapping p file).1.funcIndex = p.funcIndex ∧
    (getOrCreateMapping p file).1.locations = p.locations ∧
    (getOrCreateMapping p file).1.locIndex = p.locIndex ∧
    (getOrCreateMapping p file).1.samples = p.samples ∧
    (getOrCreateMapping p file).1.sampleTypes = p.sampleTypes := by
  unfold getOrCreateMapping
  cases hlk : lookupIdx p.mapIndex file <;> exact ⟨rfl, rfl, rfl, rfl, rfl, rfl⟩

theorem getOrCreateFunction_fields (p : Parser) (name : String) :
    (getOrCreateFunction p name).1.locations = p.locations ∧
    (getOrCreateFunction p name).1.locIndex = p.locIndex ∧
    (getOrCreateFunction p name).1.samples = p.samples ∧
    (getOrCreateFunction p name).1.sampleTypes = p.sampleTypes := by
  unfold getOrCreateFunction
  cases hlk : lookupIdx p.funcIndex name <;> exact ⟨rfl, rfl, rfl, rfl⟩

theorem getOrCreateFunction_spec {p : Parser} (hInv : TableInv p) (name : String) :
    TableInv (getOrCreateFunction p name).1 ∧
    TExt p (getOrCreateFunction p name).1 ∧
    funcNameOf (getOrCreateFunction p name).1 (getOrCreateFunction p name).2 = some name := by
  unfold getOrCreateFunction
  cases hlk : lookupIdx p.funcIndex name with
  | some fid =>
    exact ⟨hInv, TExt.refl p, hInv.funcIndex_ok name fid hlk⟩
  | none =>
    simp only
    constructor
    · constructor
      · intro f hf
        simp only [List.length_append, List.length_cons, List.length_nil]
        rcases List.mem_append.mp hf with h | h
        · have := hInv.funcs_le f h
          omega
        · simp at h
          subst h
          simp
      · intro l hl
        exact hInv.locs_le l hl
      · intro n fid hlk'
        rw [lookupIdx_cons] at hlk'
        by_cases hn : name = n
        · subst hn
          rw [if_pos rfl] at hlk'
          injection hlk' with hfid
          subst hfid
          exact funcNameIn_append_fresh hInv.funcs_le rfl
        · rw [if_neg hn] at hlk'
          exact funcNameIn_append_of_some (hInv.funcIndex_ok n fid hlk')
      · intro fn addr lid h
        obtain ⟨loc, hloc, haddr, hfn⟩ := hInv.locIndex_ok fn addr lid h
        exact ⟨loc, hloc, haddr, funcNameIn_append_of_some hfn⟩
    constructor
    · refine ⟨⟨_, rfl⟩, ⟨[], by simp⟩, fun k v h => h, fun k v h => ?_⟩
      exact lookupIdx_insert_preserve hlk h
    · exact funcNameIn_append_fresh hInv.funcs_le rfl

theorem getOrCreateMapping_locIndex (p : Parser) (file : String) :
    (getOrCreateMapping p file).1.locIndex = p.locIndex :=
  (getOrCreateMapping_fields p file).2.2.2.1

theorem getOrCreateFunction_locIndex (p : Parser) (name : String) :
    (getOrCreateFunction p name).1.locIndex = p.locIndex :=
  (getOrCreateFunction_fields p name).2.1

end perfscript

namespace perfscript

theorem internMapping_spec {p : Parser} (hInv : TableInv p) (bp : String) :
    TableInv (internMapping p bp).1 ∧
    (internMapping p bp).1.functions = p.functions ∧
    (internMapping p bp).1.funcIndex = p.funcIndex ∧
    (internMapping p bp).1.locations = p.locations ∧
    (internMapping p bp).1.locIndex = p.locIndex ∧
    (internMapping p bp).1.samples = p.samples ∧
    (internMapping p bp).1.sampleTypes = p.sampleTypes := by
  unfold internMapping
  by_cases hb : bp ≠ ""
  · rw [if_pos hb]
    obtain ⟨h1, h2, h3, h4, h5, h6⟩ := getOrCreateMapping_fields p bp
    exact ⟨getOrCreateMapping_inv hInv bp, h1, h2, h3, h4, h5, h6⟩
  · rw [if_neg hb]
    exact ⟨hInv, rfl, rfl, rfl, rfl, rfl, rfl⟩

theorem internLoc_spec {q : Parser} (hq : TableInv q) (mid : Option Nat) {fid : Nat}
    {fn : String} (addr : Nat) (hfn : funcNameOf q fid = some fn) :
    TableInv (internLoc q mid fid fn addr).1 ∧
    TExt q (internLoc q mid fid fn addr).1 ∧
    (internLoc q mid fid fn addr).1.samples = q.samples ∧
    (internLoc q mid fid fn addr).1.sampleTypes = q.sampleTypes ∧
    lookupIdx (internLoc q mid fid fn addr).1.locIndex (locKey fn addr)
      = some (internLoc q mid fid fn addr).2 := by
  unfold internLoc
  cases hlk : lookupIdx q.locIndex (locKey fn addr) with
  | some lid =>
    exact ⟨hq, TExt.refl q, rfl, rfl, hlk⟩
  | none =>
    refine ⟨?_, ?_, rfl, rfl, lookupIdx_insert_self _ _ _⟩
    · constructor
      · intro f hf
        exact hq.funcs_le f hf
      · intro l hl
        simp only [List.length_append, List.length_cons, List.length_nil]
        rcases List.mem_append.mp hl with h | h
        · have := hq.locs_le l h
          omega
        · simp at h
          subst h
          simp
      · intro n fid' hlk'
        exact hq.funcIndex_ok n fid' hlk'
      · intro fn' addr' lid' h
        rw [lookupIdx_cons] at h
        by_cases hkey : locKey fn addr = locKey fn' addr'
        · rw [if_pos hkey] at h
          injection h with hlid
          obtain ⟨hfn', haddr'⟩ := locKey_inj hkey
          subst hfn'
          subst haddr'
          refine ⟨Location.mk (q.locations.length + 1) mid addr fid, ?_, rfl, hfn⟩
          rw [← hlid]
          exact locIn_append_fresh hq.locs_le rfl
        · rw [if_neg hkey] at h
          obtain ⟨loc, hloc, haddr, hname⟩ := hq.locIndex_ok fn' addr' lid' h
          exact ⟨loc, locIn_append_of_some hloc, haddr, hname⟩
    · refine ⟨⟨[], by simp⟩, ⟨_, rfl⟩, fun k v h => lookupIdx_insert_preserve hlk h,
        fun k v h => h⟩

theorem internFrame_spec {p : Parser} (hInv : TableInv p) (f : Frame) :
    TableInv (internFrame p f).1 ∧ TExt p (internFrame p f).1 ∧
    (internFrame p f).1.samples = p.samples ∧
    (internFrame p f).1.sampleTypes = p.sampleTypes ∧
    lookupIdx (internFrame p f).1.locIndex (locKey f.funcName f.address)
      = some (internFrame p f).2 := by
  simp only [internFrame]
  obtain ⟨hmInv, hmf, hmfi, hml, hmli, hms, hmst⟩ := internMapping_spec hInv f.binaryPath
  obtain ⟨hfInv, hfExt, hfName⟩ := getOrCreateFunction_spec hmInv f.funcName
  obtain ⟨hgf1, hgf2, hgf3, hgf4⟩ :=
    getOrCreateFunction_fields (internMapping p f.binaryPath).1 f.funcName
  obtain ⟨hlInv, hlExt, hls, hlst, hllk⟩ :=
    internLoc_spec hfInv (internMapping p f.binaryPath).2 f.address hfName
  have hext := TExt.trans (TExt.trans
    (⟨⟨[], by simp [hmf]⟩, ⟨[], by simp [hml]⟩,
      fun k v h => by rw [hmli]; exact h, fun k v h => by rw [hmfi]; exact h⟩ : TExt p _)
    hfExt) hlExt
  exact ⟨hlInv, hext, by rw [hls, hgf3, hms], by rw [hlst, hgf4, hmst], hllk⟩

theorem internMapping_locIndex (p : Parser) (bp : String) :
    (internMapping p bp).1.locIndex = p.locIndex := by
  unfold internMapping
  by_cases hb : bp ≠ ""
  · rw [if_pos hb]
    exact getOrCreateMapping_locIndex p bp
  · rw [if_neg hb]

theorem internFrame_det {p : Parser} {f : Frame} {lid : Nat}
    (h : lookupIdx p.locIndex (locKey f.funcName f.address) = some lid) :
    (internFrame p f).2 = lid := by
  simp only [internFrame, internLoc]
  rw [getOrCreateFunction_locIndex, internMapping_locIndex, h]

end perfscript

namespace perfscript

/-- All frames of a stack are recorded in the location dedup map with the
given IDs. -/
def stackLookups (q : Parser) (fs : List Frame) (ids : List Nat) : Prop :=
  List.Forall₂ (fun f lid => lookupIdx q.locIndex (locKey f.funcName f.address) = some lid) fs ids

theorem stackLookups_mono {q r : Parser} (hqr : TExt q r) {fs : List Frame} {ids : List Nat}
    (h : stackLookups q fs ids) : stackLookups r fs ids :=
  List.Forall₂.imp (fun {f} {lid} hf => hqr.locLookup _ lid hf) h

theorem internStack_spec {p : Parser} (hInv : TableInv p) (fs : List Frame) :
    TableInv (internStack p fs).1 ∧ TExt p (internStack p fs).1 ∧
    (internStack p fs).1.samples = p.samples ∧
    (internStack p fs).1.sampleTypes = p.sampleTypes ∧
    stackLookups (internStack p fs).1 fs (internStack p fs).2 := by
  induction fs generalizing p with
  | nil =>
    exact ⟨hInv, TExt.refl p, rfl, rfl, List.Forall₂.nil⟩
  | cons f fs ih =>
    obtain ⟨hInv1, hExt1, hs1, hst1, hlk1⟩ := internFrame_spec hInv f
    obtain ⟨hInv2, hExt2, hs2, hst2, hlk2⟩ := ih hInv1
    simp only [internStack]
    refine ⟨hInv2, TExt.trans hExt1 hExt2, by rw [hs2, hs1], by rw [hst2, hst1], ?_⟩
    exact List.Forall₂.cons (hExt2.locLookup _ _ hlk1) hlk2

theorem internStack_det {p : Parser} (hInv : TableInv p) {fs : List Frame} {s : List Nat}
    (h : stackLookups p fs s) : (internStack p fs).2 = s := by
  induction fs generalizing p s with
  | nil =>
    cases h
    rfl
  | cons f fs ih =>
    cases h with
    | cons hf hrest =>
      obtain ⟨hInv1, hExt1, _, _, _⟩ := internFrame_spec hInv f
      have := ih hInv1 (stackLookups_mono hExt1 hrest)
      simp only [internStack]
      rw [internFrame_det hf, this]

theorem lookup_locIndex_inj {q : Parser} (hInv : TableInv q) {f1 f2 : String}
    {a1 a2 lid : Nat} (h1 : lookupIdx q.locIndex (locKey f1 a1) = some lid)
    (h2 : lookupIdx q.locIndex (locKey f2 a2) = some lid) : f1 = f2 ∧ a1 = a2 := by
  obtain ⟨loc1, hl1, ha1, hn1⟩ := hInv.locIndex_ok f1 a1 lid h1
  obtain ⟨loc2, hl2, ha2, hn2⟩ := hInv.locIndex_ok f2 a2 lid h2
  rw [hl1] at hl2
  injection hl2 with hloc
  subst hloc
  rw [hn1] at hn2
  injection hn2 with hname
  exact ⟨hname, by rw [← ha1, ← ha2]⟩

theorem stackLookups_inj {q : Parser} (hInv : TableInv q) :
    ∀ {fs : List Frame} {s : List Nat} (gs : List Frame) {t : List Nat},
      stackLookups q fs s → stackLookups q gs t → frameKeys fs ≠ frameKeys gs → s ≠ t := by
  intro fs
  induction fs with
  | nil =>
    intro s gs t hfs hgs hne
    cases hfs
    cases hgs with
    | nil => exact absurd rfl hne
    | cons _ _ => simp
  | cons f fs' ih =>
    intro s gs t hfs hgs hne
    cases hfs with
    | cons hf hrest =>
      cases hgs with
      | nil => simp
      | @cons g w gs' t' hg hrest' =>
        intro heq
        injection heq with hv ht
        subst hv
        obtain ⟨hfn, haddr⟩ := lookup_locIndex_inj hInv hf hg
        by_cases hk : frameKeys fs' = frameKeys gs'
        · apply hne
          simp only [frameKeys, List.map_cons, hfn, haddr]
          simp only [frameKeys] at hk
          rw [hk]
        · exact ih gs' hrest hrest' hk ht

theorem frameKeyOf_of_lookup {q : Parser} (hInv : TableInv q) {fn : String} {addr lid : Nat}
    (h : lookupIdx q.locIndex (locKey fn addr) = some lid) :
    frameKeyOf q lid = some (fn, addr) := by
  obtain ⟨loc, hloc, haddr, hname⟩ := hInv.locIndex_ok fn addr lid h
  unfold frameKeyOf
  rw [hloc]
  simp [hname, haddr]

theorem resolveStack_of_stackLookups {q : Parser} (hInv : TableInv q) :
    ∀ {fs : List Frame} {s : List Nat}, stackLookups q fs s →
      resolveStack q s = some (frameKeys fs) := by
  intro fs
  induction fs with
  | nil =>
    intro s h
    cases h
    rfl
  | cons f fs' ih =>
    intro s h
    cases h with
    | cons hf hrest =>
      unfold resolveStack
      rw [frameKeyOf_of_lookup hInv hf, ih hrest]
      rfl

theorem stackLookups_length {q : Parser} {fs : List Frame} {s : List Nat}
    (h : stackLookups q fs s) : s.length = fs.length :=
  (List.Forall₂.length_eq h).symm

end perfscript

namespace perfscript

/-- One finalized stack block as handed to `addSample`: the accumulated
stack (as Location IDs), the header's event name, and the header's count. -/
structure Entry where
  stack : List Nat
  event : String
  count : Int
deriving Repr, DecidableEq

/-- An entry that `addSample` does not drop: nonempty stack, nonzero count
(the guard on line 215 of `parser.go`). -/
def effEntry (x : Entry) : Bool := !(x.stack.length == 0) && !(x.count == 0)

/-- Sum of the counts of all entries with the given stack and event. -/
def keySum (es : List Entry) (s : List Nat) (e : String) : Int :=
  ((es.filter (fun x => x.stack == s && x.event == e)).map (fun x => x.count)).sum

/-- Some processed entry with this stack was effective, i.e. a sample for the
stack exists. -/
def hasEff (es : List Entry) (s : List Nat) : Bool :=
  es.any (fun x => x.stack == s && effEntry x)

/-- Some processed entry with this event was effective, i.e. the event's
sample type has been registered. -/
def eventRegistered (es : List Entry) (e : String) : Bool :=
  es.any (fun x => x.event == e && effEntry x)

/-- Index of an event in the sample-type list (the scan on lines 220–227). -/
def typeIdx (ts : List ValueType) (e : String) : Option Nat :=
  findIdxA (fun vt => vt.type == e) ts

theorem findIdxA_some_decomp {α : Type _} {p : α → Bool} :
    ∀ {l : List α} {i : Nat}, findIdxA p l = some i →
      ∃ u a v, l = u ++ a :: v ∧ u.length = i ∧ p a = true ∧ ∀ b ∈ u, p b = false := by
  intro l
  induction l with
  | nil =>
    intro i h
    have h' : (none : Option Nat) = some i := h
    cases h'
  | cons a as ih =>
    intro i h
    simp only [findIdxA] at h
    by_cases hpa : p a
    · rw [if_pos hpa] at h
      injection h with hi
      exact ⟨[], a, as, rfl, hi, hpa, by simp⟩
    · rw [if_neg hpa] at h
      cases hfi : findIdxA p as with
      | none =>
        rw [hfi] at h
        cases h
      | some j =>
        rw [hfi] at h
        simp only [Option.map_some'] at h
        injection h with hj
        obtain ⟨u, b, v, hl, hu, hpb, hall⟩ := ih hfi
        refine ⟨a :: u, b, v, by rw [hl]; rfl, by simp [hu, ← hj], hpb, ?_⟩
        intro c hc
        rcases List.mem_cons.mp hc with hce | hcu
        · rw [hce]
          simpa using hpa
        · exact hall c hcu

theorem findIdxA_eq_none_iff {α : Type _} {p : α → Bool} :
    ∀ {l : List α}, findIdxA p l = none ↔ ∀ a ∈ l, p a = false := by
  intro l
  induction l with
  | nil =>
    exact ⟨fun _ a ha => absurd ha (List.not_mem_nil a), fun _ => rfl⟩
  | cons a as ih =>
    simp only [findIdxA]
    by_cases hpa : p a
    · simp [hpa]
    · rw [if_neg hpa]
      constructor
      · intro h b hb
        rcases List.mem_cons.mp hb with hb | hb
        · rw [hb]
          simpa using hpa
        · refine ih.mp ?_ b hb
          cases hfi : findIdxA p as with
          | none => rfl
          | some j =>
            rw [hfi] at h
            simp at h
      · intro h
        rw [ih.mpr (fun b hb => h b (List.mem_cons.mpr (Or.inr hb)))]
        rfl

theorem findIdxA_append_some {α : Type _} {p : α → Bool} :
    ∀ {la : List α} (lb : List α) {i : Nat},
      findIdxA p la = some i → findIdxA p (la ++ lb) = some i := by
  intro la
  induction la with
  | nil =>
    intro lb i h
    have h' : (none : Option Nat) = some i := h
    cases h'
  | cons a as ih =>
    intro lb i h
    simp only [findIdxA] at h
    simp only [List.cons_append, findIdxA, List.append_eq]
    by_cases hpa : p a
    · rw [if_pos hpa] at h ⊢
      exact h
    · rw [if_neg hpa] at h ⊢
      cases hfi : findIdxA p as with
      | none =>
        rw [hfi] at h
        cases h
      | some j =>
        rw [hfi] at h
        rw [ih lb hfi]
        exact h

theorem findIdxA_append_none {α : Type _} {p : α → Bool} :
    ∀ {la : List α} (lb : List α), findIdxA p la = none →
      findIdxA p (la ++ lb) = (findIdxA p lb).map (· + la.length) := by
  intro la
  induction la with
  | nil =>
    intro lb _
    simp
  | cons a as ih =>
    intro lb h
    simp only [findIdxA] at h
    simp only [List.cons_append, findIdxA, List.append_eq]
    by_cases hpa : p a
    · rw [if_pos hpa] at h
      cases h
    · rw [if_neg hpa] at h ⊢
      rw [ih lb (by
        cases hfi : findIdxA p as with
        | none => rfl
        | some j => rw [hfi] at h; simp at h)]
      cases findIdxA p lb with
      | none => simp
      | some j =>
        simp only [Option.map_some', List.length_cons]
        congr 1

theorem set_append_cons_length {α : Type _} (b : α) :
    ∀ (u : List α) (a : α) (v : List α), (u ++ a :: v).set u.length b = u ++ b :: v := by
  intro u
  induction u with
  | nil =>
    intro a v
    simp
  | cons c u ih =>
    intro a v
    simp only [List.cons_append, List.length_cons, List.set_cons_succ]
    rw [ih]

theorem keySum_append (es1 es2 : List Entry) (s : List Nat) (e : String) :
    keySum (es1 ++ es2) s e = keySum es1 s e + keySum es2 s e := by
  simp [keySum, List.filter_append]

theorem keySum_singleton (x : Entry) (s : List Nat) (e : String) :
    keySum [x] s e = if x.stack == s && x.event == e then x.count else 0 := by
  simp only [keySum, List.filter]
  cases h : x.stack == s && x.event == e <;> simp

theorem hasEff_append_one (es : List Entry) (x : Entry) (s : List Nat) :
    hasEff (es ++ [x]) s = (hasEff es s || (x.stack == s && effEntry x)) := by
  simp [hasEff]

theorem eventRegistered_append_one (es : List Entry) (x : Entry) (e : String) :
    eventRegistered (es ++ [x]) e = (eventRegistered es e || (x.event == e && effEntry x)) := by
  simp [eventRegistered]

theorem keySum_eq_zero_of_unregistered {es : List Entry} {e : String}
    (h : eventRegistered es e = false) {s : List Nat} (hs : s ≠ []) :
    keySum es s e = 0 := by
  apply List.sum_eq_zero
  intro c hc
  simp only [List.mem_map] at hc
  obtain ⟨y, hy, hyc⟩ := hc
  have hmem := List.mem_filter.mp hy
  obtain ⟨hyes, hpred⟩ := hmem
  have hpred' : (y.stack == s) = true ∧ (y.event == e) = true := by simpa using hpred
  obtain ⟨hstk, hev⟩ := hpred'
  by_cases hc0 : y.count = 0
  · rw [← hyc, hc0]
  · exfalso
    have heff : effEntry y = true := by
      have hys : y.stack = s := by simpa using hstk
      have hlen : y.stack.length ≠ 0 := by
        rw [hys]
        intro h0
        exact hs (List.eq_nil_of_length_eq_zero h0)
      unfold effEntry
      rw [(by simpa using hlen : (y.stack.length == 0) = false),
          (by simpa using hc0 : (y.count == 0) = false)]
      rfl
    have : eventRegistered es e = true :=
      List.any_eq_true.mpr ⟨y, hyes, by simp [hev, heff]⟩
    rw [h] at this
    cases this

end perfscript

section moreListHelpers

variable {α : Type _}

theorem getD_append_cons_length (d : α) :
    ∀ (u : List α) (a : α) (v : List α), (u ++ a :: v).getD u.length d = a := by
  intro u
  induction u with
  | nil =>
    intro a v
    rfl
  | cons c u ih =>
    intro a v
    simp only [List.cons_append, List.length_cons, List.getD_cons_succ]
    exact ih a v

theorem getD_set_self (d : α) :
    ∀ (l : List α) (n : Nat) (a : α), n < l.length → (l.set n a).getD n d = a := by
  intro l
  induction l with
  | nil =>
    intro n a h
    simp at h
  | cons c l ih =>
    intro n a h
    cases n with
    | zero => rfl
    | succ m =>
      simp only [List.set_cons_succ, List.getD_cons_succ]
      exact ih m a (by simpa using h)

theorem getD_set_ne (d : α) :
    ∀ (l : List α) (n k : Nat) (a : α), k ≠ n → (l.set n a).getD k d = l.getD k d := by
  intro l
  induction l with
  | nil =>
    intro n k a _
    simp
  | cons c l ih =>
    intro n k a hk
    cases n with
    | zero =>
      cases k with
      | zero => exact absurd rfl hk
      | succ m => rfl
    | succ m =>
      cases k with
      | zero => rfl
      | succ k' =>
        simp only [List.set_cons_succ, List.getD_cons_succ]
        exact ih m k' a (by omega)

theorem getD_replicate_lt (d a : α) :
    ∀ (n k : Nat), k < n → (List.replicate n a).getD k d = a := by
  intro n
  induction n with
  | zero =>
    intro k h
    omega
  | succ m ih =>
    intro k h
    cases k with
    | zero => rfl
    | succ k' =>
      simp only [List.replicate_succ, List.getD_cons_succ]
      exact ih k' (by omega)

theorem getD_append_lt (d : α) :
    ∀ (l l' : List α) (n : Nat), n < l.length → (l ++ l').getD n d = l.getD n d := by
  intro l
  induction l with
  | nil =>
    intro l' n h
    simp at h
  | cons c l ih =>
    intro l' n h
    cases n with
    | zero => rfl
    | succ m =>
      simp only [List.cons_append, List.getD_cons_succ]
      exact ih l' m (by simpa using h)

end moreListHelpers

namespace perfscript

theorem findIdxA_lt_length {α : Type _} {p : α → Bool} {l : List α} {i : Nat}
    (h : findIdxA p l = some i) : i < l.length := by
  obtain ⟨u, a, v, hl, hu, _, _⟩ := findIdxA_some_decomp h
  rw [hl, ← hu]
  simp

theorem findIdxA_getD {α : Type _} {p : α → Bool} {l : List α} {i : Nat} (d : α)
    (h : findIdxA p l = some i) : p (l.getD i d) = true := by
  obtain ⟨u, a, v, hl, hu, hpa, _⟩ := findIdxA_some_decomp h
  rw [hl, ← hu, getD_append_cons_length]
  exact hpa

/-- Distinct events have distinct value indices. -/
theorem typeIdx_inj {ts : List ValueType} {e1 e2 : String} {i : Nat}
    (h1 : typeIdx ts e1 = some i) (h2 : typeIdx ts e2 = some i) : e1 = e2 := by
  have g1 := findIdxA_getD (ValueType.mk "" "") h1
  have g2 := findIdxA_getD (ValueType.mk "" "") h2
  simp only [beq_iff_eq] at g1 g2
  rw [← g1, ← g2]

theorem effEntry_iff {x : Entry} : effEntry x = true ↔ (x.stack ≠ [] ∧ x.count ≠ 0) := by
  unfold effEntry
  rw [Bool.and_eq_true]
  constructor
  · intro ⟨h1, h2⟩
    constructor
    · intro hnil
      rw [hnil] at h1
      simp at h1
    · intro h0
      rw [h0] at h2
      simp at h2
  · intro ⟨h1, h2⟩
    constructor
    · simp only [Bool.not_eq_true']
      simp only [beq_eq_false_iff_ne, ne_eq]
      intro hlen
      exact h1 (List.eq_nil_of_length_eq_zero hlen)
    · simp only [Bool.not_eq_true']
      simpa using h2

theorem keySum_eq_zero_of_no_eff {es : List Entry} {s : List Nat}
    (h : hasEff es s = false) (hs : s ≠ []) (e : String) : keySum es s e = 0 := by
  apply List.sum_eq_zero
  intro c hc
  simp only [List.mem_map] at hc
  obtain ⟨y, hy, hyc⟩ := hc
  obtain ⟨hyes, hpred⟩ := List.mem_filter.mp hy
  have hpred' : (y.stack == s) = true ∧ (y.event == e) = true := by simpa using hpred
  by_cases hc0 : y.count = 0
  · rw [← hyc, hc0]
  · exfalso
    have heff : effEntry y = true := by
      apply effEntry_iff.mpr
      refine ⟨?_, hc0⟩
      have : y.stack = s := by simpa using hpred'.1
      rw [this]
      exact hs
    have : hasEff es s = true :=
      List.any_eq_true.mpr ⟨y, hyes, by simp [hpred'.1, heff]⟩
    rw [h] at this
    cases this

theorem wrap64_zero : wrap64 0 = 0 := by decide

theorem wrap64_wrap_add (a b : Int) : wrap64 (wrap64 a + b) = wrap64 (a + b) := by
  unfold wrap64
  have h1 : (a + 2 ^ 63) % 2 ^ 64 - 2 ^ 63 + b + 2 ^ 63 = (a + 2 ^ 63) % 2 ^ 64 + b := by
    ring
  rw [h1, Int.emod_add_emod]
  rw [show a + 2 ^ 63 + b = a + b + 2 ^ 63 from by ring]

theorem wrap64_eq_self {n : Int} (h1 : -(2 ^ 63) ≤ n) (h2 : n < 2 ^ 63) :
    wrap64 n = n := by
  unfold wrap64
  omega

end perfscript

namespace perfscript

/-- The sample-accounting invariant tying the parser's `SampleType`/`Sample`
state to the list of entries processed by `addSample` so far: each value
slot holds the `int64`-wrapped sum of the matching entries' counts. -/
structure SInv (es : List Entry) (p : Parser) : Prop where
  nodup : (p.samples.map (fun smp => smp.locationIDs)).Nodup
  mem_iff : ∀ s : List Nat, (∃ smp ∈ p.samples, smp.locationIDs = s) ↔ hasEff es s = true
  wf : ∀ smp ∈ p.samples, smp.value.length = p.sampleTypes.length ∧ smp.locationIDs ≠ []
  reg : ∀ e, (typeIdx p.sampleTypes e).isSome = eventRegistered es e
  val : ∀ smp ∈ p.samples, ∀ e i, typeIdx p.sampleTypes e = some i →
    smp.value.getD i 0 = wrap64 (keySum es smp.locationIDs e)

theorem SInv_init {p : Parser} (hs : p.samples = []) (hst : p.sampleTypes = []) :
    SInv [] p := by
  constructor
  · rw [hs]
    exact List.nodup_nil
  · intro s
    rw [hs]
    simp [hasEff]
  · intro smp hsmp
    rw [hs] at hsmp
    cases hsmp
  · intro e
    rw [hst]
    simp [typeIdx, findIdxA, eventRegistered]
  · intro smp hsmp
    rw [hs] at hsmp
    cases hsmp

/-- The state between the two halves of `addSample`: the event is registered
at value index `i`, samples are unchanged except for zero-padding, and the
type table already accounts for the incoming entry. -/
structure MidState (es : List Entry) (x : Entry) (p1 : Parser) (i : Nat) : Prop where
  hti : typeIdx p1.sampleTypes x.event = some i
  nodup : (p1.samples.map (fun smp => smp.locationIDs)).Nodup
  mem_iff : ∀ s : List Nat, (∃ smp ∈ p1.samples, smp.locationIDs = s) ↔ hasEff es s = true
  wf : ∀ smp ∈ p1.samples, smp.value.length = p1.sampleTypes.length ∧ smp.locationIDs ≠ []
  reg : ∀ e, (typeIdx p1.sampleTypes e).isSome = eventRegistered (es ++ [x]) e
  val : ∀ smp ∈ p1.samples, ∀ e k, typeIdx p1.sampleTypes e = some k →
    smp.value.getD k 0 = wrap64 (keySum es smp.locationIDs e)

theorem registerType_spec {es : List Entry} {p : Parser} (h : SInv es p) {x : Entry}
    (heff : effEntry x = true) :
    MidState es x (registerType p x.event).1 (registerType p x.event).2 := by
  unfold registerType
  cases hti : findIdxA (fun vt => vt.type == x.event) p.sampleTypes with
  | some i =>
    refine ⟨hti, h.nodup, h.mem_iff, h.wf, ?_, h.val⟩
    intro e
    rw [eventRegistered_append_one]
    by_cases he : x.event = e
    · subst he
      have : (typeIdx p.sampleTypes x.event).isSome = true := by
        rw [show typeIdx p.sampleTypes x.event = some i from hti]
        rfl
      rw [this]
      simp [heff]
    · rw [(by simpa using he : (x.event == e) = false)]
      simp [h.reg e]
  | none =>
    constructor
    case hti =>
      show typeIdx (p.sampleTypes ++ [ValueType.mk x.event "count"]) x.event
        = some p.sampleTypes.length
      unfold typeIdx
      rw [findIdxA_append_none _ hti]
      simp [findIdxA]
    case nodup =>
      show ((p.samples.map (fun s => { s with value := s.value ++ [0] })).map
        (fun smp => smp.locationIDs)).Nodup
      rw [List.map_map]
      exact h.nodup
    case mem_iff =>
      intro s
      constructor
      · intro ⟨smp', hmem', hloc'⟩
        obtain ⟨smp, hsmp, heq⟩ := List.mem_map.mp hmem'
        apply (h.mem_iff s).mp
        refine ⟨smp, hsmp, ?_⟩
        rw [← hloc', ← heq]
      · intro hs
        obtain ⟨smp, hsmp, hloc⟩ := (h.mem_iff s).mpr hs
        exact ⟨_, List.mem_map_of_mem _ hsmp, hloc⟩
    case wf =>
      intro smp' hmem'
      obtain ⟨smp, hsmp, heq⟩ := List.mem_map.mp hmem'
      obtain ⟨hlen, hne⟩ := h.wf smp hsmp
      constructor
      · rw [← heq]
        simp [hlen]
      · rw [← heq]
        exact hne
    case reg =>
      intro e
      rw [eventRegistered_append_one]
      cases holde : findIdxA (fun vt => vt.type == e) p.sampleTypes with
      | some k =>
        have : typeIdx (p.sampleTypes ++ [ValueType.mk x.event "count"]) e = some k :=
          findIdxA_append_some _ holde
        rw [this]
        have hrege : eventRegistered es e = true := by
          rw [← h.reg e]
          rw [show typeIdx p.sampleTypes e = some k from holde]
          rfl
        rw [hrege]
        rfl
      | none =>
        have hrege : eventRegistered es e = false := by
          rw [← h.reg e]
          rw [show typeIdx p.sampleTypes e = none from holde]
          rfl
        rw [hrege]
        unfold typeIdx
        rw [findIdxA_append_none _ holde]
        by_cases he : x.event = e
        · subst he
          simp [findIdxA, heff]
        · rw [show findIdxA (fun vt => vt.type == e) [ValueType.mk x.event "count"] = none by
            simp [findIdxA, he]]
          rw [(by simpa using he : (x.event == e) = false)]
          rfl
    case val =>
      intro smp' hmem' e k htk
      obtain ⟨smp, hsmp, heq⟩ := List.mem_map.mp hmem'
      obtain ⟨hlen, hne⟩ := h.wf smp hsmp
      cases holde : findIdxA (fun vt => vt.type == e) p.sampleTypes with
      | some k0 =>
        have htk0 : typeIdx (p.sampleTypes ++ [ValueType.mk x.event "count"]) e = some k0 :=
          findIdxA_append_some _ holde
        rw [htk0] at htk
        injection htk with hk
        subst hk
        have hk0 : k0 < smp.value.length := by
          rw [hlen]
          exact findIdxA_lt_length holde
        rw [← heq]
        show (smp.value ++ [0]).getD k0 0 = wrap64 (keySum es smp.locationIDs e)
        rw [getD_append_lt 0 smp.value [0] k0 hk0]
        exact h.val smp hsmp e k0 holde
      | none =>
        unfold typeIdx at htk
        rw [findIdxA_append_none _ holde] at htk
        by_cases he : x.event = e
        · subst he
          simp only [findIdxA, beq_self_eq_true, if_pos] at htk
          have hk : k = p.sampleTypes.length := by
            simp at htk
            omega
          subst hk
          rw [← heq]
          show (smp.value ++ [0]).getD p.sampleTypes.length 0
            = wrap64 (keySum es smp.locationIDs x.event)
          have hval0 : (smp.value ++ (0 : Int) :: []).getD smp.value.length 0 = 0 :=
            getD_append_cons_length 0 smp.value 0 []
          rw [← hlen]
          rw [hval0]
          have hureg : eventRegistered es x.event = false := by
            rw [← h.reg x.event]
            rw [show typeIdx p.sampleTypes x.event = none from hti]
            rfl
          rw [keySum_eq_zero_of_unregistered hureg hne, wrap64_zero]
        · rw [show findIdxA (fun vt => vt.type == e) [ValueType.mk x.event "count"] = none by
            simp [findIdxA, he]] at htk
          cases htk

end perfscript

namespace perfscript

theorem mergeSample_spec {es : List Entry} {x : Entry} {p1 : Parser} {i : Nat}
    (hmid : MidState es x p1 i) (heff : effEntry x = true)
    (hrange : -(2 ^ 63) ≤ x.count ∧ x.count < 2 ^ 63) :
    SInv (es ++ [x]) (mergeSample p1 x.stack i x.count) := by
  obtain ⟨hsne, hcne⟩ := effEntry_iff.mp heff
  have hibound : i < p1.sampleTypes.length := findIdxA_lt_length hmid.hti
  unfold mergeSample
  cases hfj : findIdxA (fun s => stacksEqual s.locationIDs x.stack) p1.samples with
  | some j =>
    obtain ⟨u, old0, v, hdecomp, hulen, hpred, hall⟩ := findIdxA_some_decomp hfj
    have holdstk : old0.locationIDs = x.stack := (stacksEqual_iff _ _).mp hpred
    have hold : p1.samples.getD j { locationIDs := [], value := [] } = old0 := by
      rw [hdecomp, ← hulen]
      exact getD_append_cons_length _ u old0 v
    show SInv (es ++ [x]) (mergeAt p1 j i x.count)
    unfold mergeAt mergeValue
    rw [hold, hdecomp, ← hulen, set_append_cons_length]
    have hmemold : old0 ∈ p1.samples := by
      rw [hdecomp]
      exact List.mem_append.mpr (Or.inr (List.mem_cons_self _ _))
    obtain ⟨holdlen, holdne⟩ := hmid.wf old0 hmemold
    have hibound' : i < old0.value.length := by
      rw [holdlen]
      exact hibound
    have hmapdec : p1.samples.map (fun smp => smp.locationIDs)
        = u.map (fun smp => smp.locationIDs)
          ++ old0.locationIDs :: v.map (fun smp => smp.locationIDs) := by
      rw [hdecomp]
      simp
    have hnodup2 := hmid.nodup
    rw [hmapdec] at hnodup2
    have hnm := List.nodup_middle.mp hnodup2
    have hnotmem := (List.nodup_cons.mp hnm).1
    have huv : ∀ smp : Sample, smp ∈ u ∨ smp ∈ v → smp.locationIDs ≠ x.stack := by
      intro smp hsmp heq
      apply hnotmem
      rw [holdstk]
      rcases hsmp with hu | hv
      · exact List.mem_append.mpr (Or.inl (heq ▸ List.mem_map_of_mem _ hu))
      · exact List.mem_append.mpr (Or.inr (heq ▸ List.mem_map_of_mem _ hv))
    have hmemp1 : ∀ smp : Sample, smp ∈ u ∨ smp ∈ v → smp ∈ p1.samples := by
      intro smp hsmp
      rw [hdecomp]
      rcases hsmp with hu | hv
      · exact List.mem_append.mpr (Or.inl hu)
      · exact List.mem_append.mpr (Or.inr (List.mem_cons.mpr (Or.inr hv)))
    constructor
    case nodup =>
      have : (u ++ ({ old0 with
            value := old0.value.set i
              (wrap64 (old0.value.getD i 0 + x.count)) } : Sample) :: v).map
          (fun smp => smp.locationIDs)
          = u.map (fun smp => smp.locationIDs)
            ++ old0.locationIDs :: v.map (fun smp => smp.locationIDs) := by
        simp
      rw [this]
      exact hnodup2
    case mem_iff =>
      intro s
      rw [hasEff_append_one, heff, Bool.and_true]
      by_cases hs : x.stack = s
      · subst hs
        apply iff_of_true
        · exact ⟨_, List.mem_append.mpr (Or.inr (List.mem_cons_self _ _)), holdstk⟩
        · simp
      · rw [(by simpa using hs : (x.stack == s) = false), Bool.or_false]
        rw [← hmid.mem_iff s]
        constructor
        · intro ⟨smp, hmem, hloc⟩
          rcases List.mem_append.mp hmem with hu | hmv
          · exact ⟨smp, hmemp1 smp (Or.inl hu), hloc⟩
          · rcases List.mem_cons.mp hmv with hM | hv
            · exfalso
              apply hs
              rw [← hloc, hM]
              exact holdstk.symm
            · exact ⟨smp, hmemp1 smp (Or.inr hv), hloc⟩
        · intro ⟨smp, hmem, hloc⟩
          rw [hdecomp] at hmem
          rcases List.mem_append.mp hmem with hu | hmv
          · exact ⟨smp, List.mem_append.mpr (Or.inl hu), hloc⟩
          · rcases List.mem_cons.mp hmv with hM | hv
            · exfalso
              apply hs
              rw [← hloc, hM]
              exact holdstk.symm
            · exact ⟨smp, List.mem_append.mpr (Or.inr (List.mem_cons.mpr (Or.inr hv))), hloc⟩
    case wf =>
      intro smp hmem
      rcases List.mem_append.mp hmem with hu | hmv
      · exact hmid.wf smp (hmemp1 smp (Or.inl hu))
      · rcases List.mem_cons.mp hmv with hM | hv
        · subst hM
          constructor
          · simp [holdlen]
          · simpa using holdne
        · exact hmid.wf smp (hmemp1 smp (Or.inr hv))
    case reg => exact hmid.reg
    case val =>
      intro smp hmem e k htk
      rw [keySum_append, keySum_singleton]
      rcases List.mem_append.mp hmem with hu | hmv
      · have hne := huv smp (Or.inl hu)
        rw [(by simpa using (fun h => hne h.symm) : (x.stack == smp.locationIDs) = false)]
        rw [Bool.false_and, if_neg (by simp), add_zero]
        exact hmid.val smp (hmemp1 smp (Or.inl hu)) e k htk
      · rcases List.mem_cons.mp hmv with hM | hv
        · rw [hM]
          show (old0.value.set i (wrap64 (old0.value.getD i 0 + x.count))).getD k 0
            = wrap64 (keySum es old0.locationIDs e
              + (if (x.stack == old0.locationIDs && x.event == e) = true then x.count else 0))
          by_cases he : e = x.event
          · subst he
            have hk : k = i := by
              have := hmid.hti
              rw [htk] at this
              injection this
            subst hk
            rw [getD_set_self 0 old0.value k _ hibound']
            rw [hmid.val old0 hmemold x.event k htk]
            rw [if_pos (by simp [holdstk])]
            exact wrap64_wrap_add _ _
          · have hk : k ≠ i := by
              intro hk
              subst hk
              exact he (typeIdx_inj htk hmid.hti)
            rw [getD_set_ne 0 old0.value i k _ hk]
            rw [hmid.val old0 hmemold e k htk]
            rw [if_neg (by simp [(by simpa using fun h => he h.symm : (x.event == e) = false)]),
              add_zero]
        · have hne := huv smp (Or.inr hv)
          rw [(by simpa using (fun h => hne h.symm) : (x.stack == smp.locationIDs) = false)]
          rw [Bool.false_and, if_neg (by simp), add_zero]
          exact hmid.val smp (hmemp1 smp (Or.inr hv)) e k htk
  | none =>
    have hnone : ∀ smp ∈ p1.samples, smp.locationIDs ≠ x.stack := by
      intro smp hsmp heq
      have hfalse := findIdxA_eq_none_iff.mp hfj smp hsmp
      rw [heq] at hfalse
      rw [(stacksEqual_iff x.stack x.stack).mpr rfl] at hfalse
      cases hfalse
    have hnoteff : hasEff es x.stack = false := by
      cases hh : hasEff es x.stack with
      | false => rfl
      | true =>
        obtain ⟨smp, hsmp, hloc⟩ := (hmid.mem_iff x.stack).mpr hh
        exact absurd hloc (hnone smp hsmp)
    show SInv (es ++ [x]) (appendNew p1 x.stack i x.count)
    unfold appendNew
    constructor
    case nodup =>
      rw [List.map_append]
      rw [List.nodup_append]
      refine ⟨hmid.nodup, by simp, ?_⟩
      intro a ha ha'
      simp only [List.map_cons, List.map_nil, List.mem_singleton] at ha'
      obtain ⟨smp, hsmp, hloc⟩ := List.mem_map.mp ha
      exact hnone smp hsmp (by rw [hloc, ha'])
    case mem_iff =>
      intro s
      rw [hasEff_append_one, heff, Bool.and_true]
      by_cases hs : x.stack = s
      · subst hs
        apply iff_of_true
        · exact ⟨_, List.mem_append.mpr (Or.inr (List.mem_cons_self _ _)), rfl⟩
        · simp
      · rw [(by simpa using hs : (x.stack == s) = false), Bool.or_false]
        rw [← hmid.mem_iff s]
        constructor
        · intro ⟨smp, hmem, hloc⟩
          rcases List.mem_append.mp hmem with hp | hn
          · exact ⟨smp, hp, hloc⟩
          · exfalso
            apply hs
            rw [← hloc]
            rcases List.mem_cons.mp hn with hM | hv
            · rw [hM]
            · cases hv
        · intro ⟨smp, hmem, hloc⟩
          exact ⟨smp, List.mem_append.mpr (Or.inl hmem), hloc⟩
    case wf =>
      intro smp hmem
      rcases List.mem_append.mp hmem with hp | hn
      · exact hmid.wf smp hp
      · rcases List.mem_cons.mp hn with hM | hv
        · subst hM
          exact ⟨by simp, hsne⟩
        · cases hv
    case reg => exact hmid.reg
    case val =>
      intro smp hmem e k htk
      rw [keySum_append, keySum_singleton]
      rcases List.mem_append.mp hmem with hp | hn
      · have hne := hnone smp hp
        rw [(by simpa using (fun h => hne h.symm) : (x.stack == smp.locationIDs) = false)]
        rw [Bool.false_and, if_neg (by simp), add_zero]
        exact hmid.val smp hp e k htk
      · rcases List.mem_cons.mp hn with hM | hv
        · subst hM
          show ((List.replicate p1.sampleTypes.length (0 : Int)).set i x.count).getD k 0
            = wrap64 (keySum es x.stack e
              + (if (x.stack == x.stack && x.event == e) = true then x.count else 0))
          rw [keySum_eq_zero_of_no_eff hnoteff hsne e, zero_add]
          by_cases he : e = x.event
          · subst he
            have hk : k = i := by
              have := hmid.hti
              rw [htk] at this
              injection this
            subst hk
            rw [getD_set_self 0 _ k x.count (by simpa using hibound)]
            rw [if_pos (by simp)]
            exact (wrap64_eq_self hrange.1 hrange.2).symm
          · have hk : k ≠ i := by
              intro hk
              subst hk
              exact he (typeIdx_inj htk hmid.hti)
            rw [getD_set_ne 0 _ i k x.count hk]
            rw [getD_replicate_lt (0 : Int) 0 p1.sampleTypes.length k
              (findIdxA_lt_length htk)]
            rw [if_neg (by simp [(by simpa using fun h => he h.symm : (x.event == e) = false)]),
              wrap64_zero]
        · cases hv

end perfscript

namespace perfscript

theorem SInv_step {es : List Entry} {p : Parser} (h : SInv es p) (x : Entry)
    (hr : -(2 ^ 63) ≤ x.count ∧ x.count < 2 ^ 63) :
    SInv (es ++ [x]) (addSample p x.stack x.event x.count) := by
  by_cases heff : effEntry x = true
  · obtain ⟨h1, h2⟩ := effEntry_iff.mp heff
    have hguard : (x.stack.length == 0 || x.count == 0) = false := by
      have hl : (x.stack.length == 0) = false := by
        simp only [beq_eq_false_iff_ne, ne_eq, List.length_eq_zero]
        exact h1
      have hc : (x.count == 0) = false := by simpa using h2
      rw [hl, hc]
      rfl
    unfold addSample
    rw [if_neg (by rw [hguard]; simp)]
    exact mergeSample_spec (registerType_spec h heff) heff hr
  · have heff' : effEntry x = false := by simpa using heff
    have hguard : (x.stack.length == 0 || x.count == 0) = true := by
      by_cases hs : x.stack = []
      · simp [hs]
      · by_cases hc : x.count = 0
        · simp [hc]
        · exact absurd (effEntry_iff.mpr ⟨hs, hc⟩) heff
    unfold addSample
    rw [if_pos hguard]
    refine ⟨h.nodup, ?_, h.wf, ?_, ?_⟩
    · intro s
      rw [hasEff_append_one, heff', Bool.and_false, Bool.or_false]
      exact h.mem_iff s
    · intro e
      rw [eventRegistered_append_one, heff', Bool.and_false, Bool.or_false]
      exact h.reg e
    · intro smp hsmp e k htk
      rw [keySum_append, keySum_singleton]
      by_cases hpred : (x.stack == smp.locationIDs && x.event == e) = true
      · rw [if_pos hpred]
        have hpred' : x.stack = smp.locationIDs ∧ x.event = e := by simpa using hpred
        have hxc : x.count = 0 := by
          by_cases hc : x.count = 0
          · exact hc
          · exfalso
            apply heff
            apply effEntry_iff.mpr
            refine ⟨?_, hc⟩
            rw [hpred'.1]
            exact (h.wf smp hsmp).2
        rw [hxc, add_zero]
        exact h.val smp hsmp e k htk
      · rw [if_neg hpred, add_zero]
        exact h.val smp hsmp e k htk

/-- Folding `addSample` over a list of entries. -/
def addEntries (p : Parser) (es : List Entry) : Parser :=
  es.foldl (fun q x => addSample q x.stack x.event x.count) p

theorem addEntries_append (p : Parser) (es1 es2 : List Entry) :
    addEntries p (es1 ++ es2) = addEntries (addEntries p es1) es2 := by
  simp [addEntries, List.foldl_append]

theorem SInv_addEntries {p : Parser} (h0 : SInv [] p) :
    ∀ es : List Entry, (∀ x ∈ es, -(2 ^ 63) ≤ x.count ∧ x.count < 2 ^ 63) →
      SInv es (addEntries p es) := by
  have main : ∀ es2 es1 q, SInv es1 q →
      (∀ x ∈ es2, -(2 ^ 63) ≤ x.count ∧ x.count < 2 ^ 63) →
      SInv (es1 ++ es2) (addEntries q es2) := by
    intro es2
    induction es2 with
    | nil =>
      intro es1 q h _
      simpa [addEntries] using h
    | cons x es ih =>
      intro es1 q h hr
      have hstep := SInv_step h x (hr x (List.mem_cons_self _ _))
      have := ih (es1 ++ [x]) _ hstep (fun y hy => hr y (List.mem_cons.mpr (Or.inr hy)))
      simpa [addEntries, List.append_assoc] using this
  intro es hr
  simpa using main es [] p h0 hr

end perfscript

namespace perfscript

theorem SInv_eqv {es : List Entry} {p q : Parser} (h : SInv es p)
    (hs : q.samples = p.samples) (hst : q.sampleTypes = p.sampleTypes) : SInv es q := by
  constructor
  · rw [hs]
    exact h.nodup
  · intro s
    rw [hs]
    exact h.mem_iff s
  · intro smp hsmp
    rw [hs] at hsmp
    rw [hst]
    exact h.wf smp hsmp
  · intro e
    rw [hst]
    exact h.reg e
  · intro smp hsmp e k htk
    rw [hs] at hsmp
    rw [hst] at htk
    exact h.val smp hsmp e k htk

theorem TableInv_eqv {p q : Parser} (h : TableInv p)
    (hf : q.functions = p.functions) (hl : q.locations = p.locations)
    (hfi : q.funcIndex = p.funcIndex) (hli : q.locIndex = p.locIndex) : TableInv q := by
  constructor
  · rw [hf]
    exact h.funcs_le
  · rw [hl]
    exact h.locs_le
  · intro n fid hlk
    rw [hfi] at hlk
    show funcNameIn q.functions fid = some n
    rw [hf]
    exact h.funcIndex_ok n fid hlk
  · intro fn addr lid hlk
    rw [hli] at hlk
    obtain ⟨loc, hloc, haddr, hname⟩ := h.locIndex_ok fn addr lid hlk
    refine ⟨loc, ?_, haddr, ?_⟩
    · show locIn q.locations lid = some loc
      rw [hl]
      exact hloc
    · show funcNameIn q.functions loc.functionID = some fn
      rw [hf]
      exact hname

theorem TExt_of_fields {p q : Parser}
    (hf : q.functions = p.functions) (hl : q.locations = p.locations)
    (hfi : q.funcIndex = p.funcIndex) (hli : q.locIndex = p.locIndex) : TExt p q :=
  ⟨⟨[], by rw [hf, List.append_nil]⟩, ⟨[], by rw [hl, List.append_nil]⟩,
    fun k v h => by rw [hli]; exact h, fun k v h => by rw [hfi]; exact h⟩

theorem registerType_fields (p : Parser) (e : String) :
    (registerType p e).1.functions = p.functions ∧
    (registerType p e).1.locations = p.locations ∧
    (registerType p e).1.funcIndex = p.funcIndex ∧
    (registerType p e).1.locIndex = p.locIndex ∧
    (registerType p e).1.mappings = p.mappings ∧
    (registerType p e).1.mapIndex = p.mapIndex := by
  unfold registerType
  cases findIdxA (fun vt => vt.type == e) p.sampleTypes <;>
    exact ⟨rfl, rfl, rfl, rfl, rfl, rfl⟩

theorem mergeSample_fields (p : Parser) (stack : List Nat) (sampleIdx : Nat) (count : Int) :
    (mergeSample p stack sampleIdx count).functions = p.functions ∧
    (mergeSample p stack sampleIdx count).locations = p.locations ∧
    (mergeSample p stack sampleIdx count).funcIndex = p.funcIndex ∧
    (mergeSample p stack sampleIdx count).locIndex = p.locIndex ∧
    (mergeSample p stack sampleIdx count).mappings = p.mappings ∧
    (mergeSample p stack sampleIdx count).mapIndex = p.mapIndex ∧
    (mergeSample p stack sampleIdx count).sampleTypes = p.sampleTypes := by
  unfold mergeSample mergeAt appendNew
  cases findIdxA (fun s => stacksEqual s.locationIDs stack) p.samples <;>
    exact ⟨rfl, rfl, rfl, rfl, rfl, rfl, rfl⟩

theorem addSample_fields (p : Parser) (stack : List Nat) (e : String) (count : Int) :
    (addSample p stack e count).functions = p.functions ∧
    (addSample p stack e count).locations = p.locations ∧
    (addSample p stack e count).funcIndex = p.funcIndex ∧
    (addSample p stack e count).locIndex = p.locIndex := by
  unfold addSample
  by_cases hg : (stack.length == 0 || count == 0) = true
  · rw [if_pos hg]
    exact ⟨rfl, rfl, rfl, rfl⟩
  · rw [if_neg hg]
    obtain ⟨m1, m2, m3, m4, _, _, _⟩ :=
      mergeSample_fields (registerType p e).1 stack (registerType p e).2 count
    obtain ⟨r1, r2, r3, r4, _, _⟩ := registerType_fields p e
    exact ⟨by rw [m1, r1], by rw [m2, r2], by rw [m3, r3], by rw [m4, r4]⟩

theorem TableInv_init : TableInv Parser.init := by
  constructor
  · intro f hf
    cases hf
  · intro l hl
    cases hl
  · intro n fid h
    cases h
  · intro fn addr lid h
    cases h

/-- One stack block of the input: the frames of its stack, the header's
event name and count. -/
structure Block where
  frames : List Frame
  event : String
  count : Int
deriving Repr, DecidableEq

/-- The handling of one block by the `Parse` loop: intern every frame in
order, accumulating the Location-ID stack, then finalize it via
`addSample`. -/
def processBlock (p : Parser) (b : Block) : Parser :=
  addSample (internStack p b.frames).1 (internStack p b.frames).2 b.event b.count

/-- `Parse` at block granularity. -/
def parseBlocks (bs : List Block) : Parser :=
  bs.foldl processBlock Parser.init

/-- The entry recorded for a block agrees with its event, count and the
location IDs its frames resolve to in the final state. -/
def BlockEntry (pf : Parser) (b : Block) (x : Entry) : Prop :=
  x.event = b.event ∧ x.count = b.count ∧ stackLookups pf b.frames x.stack

theorem processBlocks_master :
    ∀ (bs : List Block) (p : Parser) (es0 : List Entry), TableInv p → SInv es0 p →
      (∀ b ∈ bs, -(2 ^ 63) ≤ b.count ∧ b.count < 2 ^ 63) →
      ∃ tr : List Entry,
        TableInv (bs.foldl processBlock p) ∧ TExt p (bs.foldl processBlock p) ∧
        SInv (es0 ++ tr) (bs.foldl processBlock p) ∧
        List.Forall₂ (BlockEntry (bs.foldl processBlock p)) bs tr := by
  intro bs
  induction bs with
  | nil =>
    intro p es0 hT hS _
    exact ⟨[], hT, TExt.refl p, by simpa using hS, List.Forall₂.nil⟩
  | cons b bs ih =>
    intro p es0 hT hS hr
    obtain ⟨hT1, hExt1, hs1, hst1, hlk1⟩ := internStack_spec hT b.frames
    have hS1 : SInv es0 (internStack p b.frames).1 := SInv_eqv hS hs1 hst1
    have hS2 := SInv_step hS1 (Entry.mk (internStack p b.frames).2 b.event b.count)
      (hr b (List.mem_cons_self _ _))
    obtain ⟨a1, a2, a3, a4⟩ := addSample_fields (internStack p b.frames).1
      (internStack p b.frames).2 b.event b.count
    have hT2 : TableInv (processBlock p b) := TableInv_eqv hT1 a1 a2 a3 a4
    have hExt2 : TExt (internStack p b.frames).1 (processBlock p b) :=
      TExt_of_fields a1 a2 a3 a4
    obtain ⟨tr, hTf, hExtf, hSf, hFf⟩ :=
      ih (processBlock p b) (es0 ++ [Entry.mk (internStack p b.frames).2 b.event b.count])
        hT2 hS2 (fun y hy => hr y (List.mem_cons.mpr (Or.inr hy)))
    refine ⟨Entry.mk (internStack p b.frames).2 b.event b.count :: tr, ?_, ?_, ?_, ?_⟩
    · simpa [List.foldl_cons] using hTf
    · exact TExt.trans hExt1 (TExt.trans hExt2 (by simpa [List.foldl_cons] using hExtf))
    · simpa [List.foldl_cons, List.append_assoc] using hSf
    · refine List.Forall₂.cons ⟨rfl, rfl, ?_⟩ (by simpa [List.foldl_cons] using hFf)
      have hfinext : TExt (internStack p b.frames).1 ((b :: bs).foldl processBlock p) :=
        TExt.trans hExt2 (by simpa [List.foldl_cons] using hExtf)
      exact stackLookups_mono hfinext hlk1

end perfscript

namespace perfscript

theorem stackLookups_congr_keys {q : Parser} :
    ∀ {fs gs : List Frame} {s : List Nat}, frameKeys fs = frameKeys gs →
      stackLookups q fs s → stackLookups q gs s := by
  intro fs
  induction fs with
  | nil =>
    intro gs s hk h
    cases h
    cases gs with
    | nil => exact List.Forall₂.nil
    | cons g gs => simp [frameKeys] at hk
  | cons f fs ih =>
    intro gs s hk h
    cases h with
    | cons hf hrest =>
      cases gs with
      | nil => simp [frameKeys] at hk
      | cons g gs =>
        simp only [frameKeys, List.map_cons, List.cons.injEq] at hk
        obtain ⟨hfg, htl⟩ := hk
        refine List.Forall₂.cons ?_ (ih htl hrest)
        have h1 : g.funcName = f.funcName := by
          have := congrArg Prod.fst hfg
          exact this.symm
        have h2 : g.address = f.address := by
          have := congrArg Prod.snd hfg
          exact this.symm
        rw [h1, h2]
        exact hf

theorem stackLookups_unique {q : Parser} :
    ∀ {fs : List Frame} {s t : List Nat},
      stackLookups q fs s → stackLookups q fs t → s = t := by
  intro fs
  induction fs with
  | nil =>
    intro s t hs ht
    cases hs
    cases ht
    rfl
  | cons f fs ih =>
    intro s t hs ht
    cases hs with
    | cons hf hrest =>
      cases ht with
      | cons hf' hrest' =>
        rw [hf] at hf'
        injection hf' with hv
        rw [hv, ih hrest hrest']

theorem forall₂_mem_right {α β : Type _} {R : α → β → Prop} :
    ∀ {l1 : List α} {l2 : List β}, List.Forall₂ R l1 l2 → ∀ {y}, y ∈ l2 →
      ∃ b ∈ l1, R b y := by
  intro l1 l2 h
  induction h with
  | nil =>
    intro y hy
    cases hy
  | cons hab htl ih =>
    intro y hy
    rcases List.mem_cons.mp hy with hy | hy
    · exact ⟨_, List.mem_cons_self _ _, hy ▸ hab⟩
    · obtain ⟨b, hb, hR⟩ := ih hy
      exact ⟨b, List.mem_cons.mpr (Or.inr hb), hR⟩

theorem filter_map_eq_of_forall₂ {α β γ : Type _} {R : α → β → Prop}
    {p : α → Bool} {q : β → Bool} {f : α → γ} {g : β → γ}
    (hpq : ∀ a b, R a b → (p a = q b ∧ f a = g b)) :
    ∀ {l1 : List α} {l2 : List β}, List.Forall₂ R l1 l2 →
      (l1.filter p).map f = (l2.filter q).map g := by
  intro l1 l2 h
  induction h with
  | nil => rfl
  | @cons a b t1 t2 hab htl ih =>
    obtain ⟨hpab, hfab⟩ := hpq a b hab
    cases hq : q b with
    | false =>
      have hp : p a = false := by rw [hpab, hq]
      have e1 : (a :: t1).filter p = t1.filter p := by simp [List.filter_cons, hp]
      have e2 : (b :: t2).filter q = t2.filter q := by simp [List.filter_cons, hq]
      rw [e1, e2, ih]
    | true =>
      have hp : p a = true := by rw [hpab, hq]
      have e1 : (a :: t1).filter p = a :: t1.filter p := by simp [List.filter_cons, hp]
      have e2 : (b :: t2).filter q = b :: t2.filter q := by simp [List.filter_cons, hq]
      rw [e1, e2, List.map_cons, List.map_cons, hfab, ih]

theorem filter_eq_singleton_of_nodup_map {α β : Type _} [BEq β] [LawfulBEq β] {f : α → β} :
    ∀ {l : List α} {x : α} {b : β}, (l.map f).Nodup → x ∈ l → f x = b →
      l.filter (fun a => f a == b) = [x] := by
  intro l
  induction l with
  | nil =>
    intro x b _ hx _
    cases hx
  | cons a l ih =>
    intro x b hnd hx hfx
    rw [List.map_cons] at hnd
    have hnotin := (List.nodup_cons.mp hnd).1
    have hndtl := (List.nodup_cons.mp hnd).2
    rcases List.mem_cons.mp hx with hax | hxl
    · subst hax
      have hfa : (f x == b) = true := by simp [hfx]
      have hrest : l.filter (fun a => f a == b) = [] := by
        rw [List.filter_eq_nil_iff]
        intro c hc
        simp only [beq_iff_eq]
        intro hcb
        apply hnotin
        rw [hfx, ← hcb]
        exact List.mem_map_of_mem f hc
      simp [List.filter_cons, hfa, hrest]
    · have hfa : (f a == b) = false := by
        simp only [beq_eq_false_iff_ne, ne_eq]
        intro hab
        apply hnotin
        rw [hab, ← hfx]
        exact List.mem_map_of_mem f hxl
      simp only [List.filter_cons, hfa]
      have : l.filter (fun a => f a == b) = [x] := ih hndtl hxl hfx
      simpa using this

end perfscript

namespace perfscript

theorem forall₂_mem_left {α β : Type _} {R : α → β → Prop} :
    ∀ {l1 : List α} {l2 : List β}, List.Forall₂ R l1 l2 → ∀ {a}, a ∈ l1 →
      ∃ y ∈ l2, R a y := by
  intro l1 l2 h
  induction h with
  | nil =>
    intro a ha
    cases ha
  | cons hab htl ih =>
    intro a ha
    rcases List.mem_cons.mp ha with ha | ha
    · exact ⟨_, List.mem_cons_self _ _, ha ▸ hab⟩
    · obtain ⟨y, hy, hR⟩ := ih ha
      exact ⟨y, List.mem_cons.mpr (Or.inr hy), hR⟩

/-- C1 (amended): merge correctness over the stack-block run. If exactly two
blocks share the `(function name, address)` frame-sequence `fks` (nonempty)
and the event `e`, with `int64` counts `c1`, `c2` not both zero (every count
a header line can carry is an `int64`, by `strconv.ParseInt`), the parsed
profile has pairwise-distinct sample stacks and exactly one sample whose
Location-ID sequence resolves to `fks`, and that sample's slot for `e` holds
the `int64` sum `wrap64 (c1 + c2)` — equal to `c1 + c2` whenever that sum
fits in an `int64`, and wrapped around when the `Value[idx] += count`
addition overflows. (The original claim, without the "not both zero" and
"nonempty stack" qualifications and with an unwrapped sum, is refuted by
`merge_skip_counterexample`: `addSample` drops zero counts and empty stacks,
so such pairs produce no sample at all.) -/
theorem merge_correctness (bs : List Block) (fks : List (String × Nat)) (e : String)
    (c1 c2 : Int) (hne : fks ≠ [])
    (hall : ∀ b ∈ bs, -(2 ^ 63) ≤ b.count ∧ b.count < 2 ^ 63)
    (htwo : (bs.filter (fun b => frameKeys b.frames == fks && b.event == e)).map
      (fun b => b.count) = [c1, c2])
    (hnz : ¬(c1 = 0 ∧ c2 = 0)) :
    ((parseBlocks bs).samples.map (fun smp => smp.locationIDs)).Nodup ∧
    ∃ smp k,
      (parseBlocks bs).samples.filter
        (fun smp => resolveStack (parseBlocks bs) smp.locationIDs == some fks) = [smp] ∧
      typeIdx (parseBlocks bs).sampleTypes e = some k ∧
      smp.value.getD k 0 = wrap64 (c1 + c2) := by
  unfold parseBlocks
  obtain ⟨tr, hT, hExt, hS0, hF⟩ :=
    processBlocks_master bs Parser.init [] TableInv_init (SInv_init rfl rfl) hall
  have hS : SInv tr (bs.foldl processBlock Parser.init) := by simpa using hS0
  have hsplit : ∀ b : Block, (frameKeys b.frames == fks && b.event == e) = true →
      frameKeys b.frames = fks ∧ b.event = e := by
    intro b hb
    have hb' : (frameKeys b.frames == fks) = true ∧ (b.event == e) = true := by simpa using hb
    exact ⟨by simpa using hb'.1, by simpa using hb'.2⟩
  obtain ⟨b1, t1, hfl⟩ : ∃ b t,
      bs.filter (fun b => frameKeys b.frames == fks && b.event == e) = b :: t := by
    cases h : bs.filter (fun b => frameKeys b.frames == fks && b.event == e) with
    | nil =>
      rw [h] at htwo
      cases htwo
    | cons b t => exact ⟨b, t, rfl⟩
  rw [hfl, List.map_cons] at htwo
  injection htwo with hc1 htwo'
  obtain ⟨b2, t2, hfl2⟩ : ∃ b t, t1 = b :: t := by
    cases h : t1 with
    | nil =>
      rw [h] at htwo'
      cases htwo'
    | cons b t => exact ⟨b, t, rfl⟩
  rw [hfl2, List.map_cons] at htwo'
  injection htwo' with hc2 htwo''
  have ht2 : t2 = [] := by
    cases h : t2 with
    | nil => rfl
    | cons b t =>
      rw [h, List.map_cons] at htwo''
      cases htwo''
  subst ht2
  have hb1f := List.mem_filter.mp (show b1 ∈
      bs.filter (fun b => frameKeys b.frames == fks && b.event == e) by
    rw [hfl]
    exact List.mem_cons_self b1 _)
  have hb2f := List.mem_filter.mp (show b2 ∈
      bs.filter (fun b => frameKeys b.frames == fks && b.event == e) by
    rw [hfl, hfl2]
    exact List.mem_cons.mpr (Or.inr (List.mem_cons_self b2 _)))
  have hb1pred := hsplit b1 hb1f.2
  have hb2pred := hsplit b2 hb2f.2
  obtain ⟨x1, hx1tr, hx1R⟩ := forall₂_mem_left hF hb1f.1
  obtain ⟨hx1e, hx1c, hx1lk⟩ := hx1R
  have hslk : stackLookups (bs.foldl processBlock Parser.init) b1.frames x1.stack := hx1lk
  have htrans : ∀ (b : Block) (x : Entry),
      BlockEntry (bs.foldl processBlock Parser.init) b x → frameKeys b.frames = fks →
      x.stack = x1.stack := by
    intro b x hbx hfb
    obtain ⟨_, _, hxlk⟩ := hbx
    have hkeq : frameKeys b.frames = frameKeys b1.frames := by rw [hfb, hb1pred.1]
    exact stackLookups_unique (stackLookups_congr_keys hkeq hxlk) hslk
  have hdiff : ∀ (b : Block) (x : Entry),
      BlockEntry (bs.foldl processBlock Parser.init) b x → frameKeys b.frames ≠ fks →
      x.stack ≠ x1.stack := by
    intro b x hbx hfb
    obtain ⟨_, _, hxlk⟩ := hbx
    refine stackLookups_inj hT b1.frames hxlk hslk ?_
    rw [hb1pred.1]
    exact hfb
  have hpointwise : ∀ (b : Block) (x : Entry),
      BlockEntry (bs.foldl processBlock Parser.init) b x →
      ((fun b => frameKeys b.frames == fks && b.event == e) b
          = (fun x => x.stack == x1.stack && x.event == e) x
        ∧ (fun b : Block => b.count) b = (fun x : Entry => x.count) x) := by
    intro b x hbx
    obtain ⟨hxe, hxc, hxlk⟩ := hbx
    refine ⟨?_, hxc.symm⟩
    show (frameKeys b.frames == fks && b.event == e)
      = (x.stack == x1.stack && x.event == e)
    have hevq : (b.event == e) = (x.event == e) := by rw [hxe]
    rw [hevq]
    by_cases hfb : frameKeys b.frames = fks
    · rw [(by simpa using hfb : (frameKeys b.frames == fks) = true)]
      have hst := htrans b x ⟨hxe, hxc, hxlk⟩ hfb
      rw [(by simpa using hst : (x.stack == x1.stack) = true)]
    · rw [(by simpa using hfb : (frameKeys b.frames == fks) = false)]
      have hst := hdiff b x ⟨hxe, hxc, hxlk⟩ hfb
      rw [(by simpa using hst : (x.stack == x1.stack) = false)]
  have hfiltr : (tr.filter (fun x => x.stack == x1.stack && x.event == e)).map
      (fun x => x.count) = [c1, c2] := by
    have hmapeq := filter_map_eq_of_forall₂ hpointwise hF
    rw [← hmapeq, hfl, hfl2]
    simp [hc1, hc2]
  have hks : keySum tr x1.stack e = c1 + c2 := by
    unfold keySum
    rw [hfiltr]
    simp
  have hslen : x1.stack ≠ [] := by
    have hlen := stackLookups_length hslk
    have hfklen : fks.length = b1.frames.length := by
      rw [← hb1pred.1]
      simp [frameKeys]
    intro h0
    apply hne
    apply List.eq_nil_of_length_eq_zero
    rw [hfklen, ← hlen, h0]
    rfl
  have hc12 : c1 ≠ 0 ∨ c2 ≠ 0 := by tauto
  have hstar : ∃ x ∈ tr, x.stack = x1.stack ∧ x.event = e ∧ x.count ≠ 0 := by
    rcases hc12 with h | h
    · refine ⟨x1, hx1tr, rfl, by rw [hx1e, hb1pred.2], ?_⟩
      rw [hx1c, hc1]
      exact h
    · obtain ⟨x2, hx2tr, hx2R⟩ := forall₂_mem_left hF hb2f.1
      obtain ⟨hx2e, hx2c, hx2lk⟩ := hx2R
      refine ⟨x2, hx2tr, htrans b2 x2 ⟨hx2e, hx2c, hx2lk⟩ hb2pred.1,
        by rw [hx2e, hb2pred.2], ?_⟩
      rw [hx2c, hc2]
      exact h
  obtain ⟨xs, hxstr, hxss, hxse, hxsc⟩ := hstar
  have hxeff : effEntry xs = true := by
    apply effEntry_iff.mpr
    refine ⟨?_, hxsc⟩
    rw [hxss]
    exact hslen
  have heffs : hasEff tr x1.stack = true := by
    exact List.any_eq_true.mpr ⟨xs, hxstr, by simp [hxss, hxeff]⟩
  have hreg : eventRegistered tr e = true := by
    exact List.any_eq_true.mpr ⟨xs, hxstr, by simp [hxse, hxeff]⟩
  obtain ⟨smp, hsmpmem, hsmploc⟩ := (hS.mem_iff x1.stack).mpr heffs
  have hksome : (typeIdx (bs.foldl processBlock Parser.init).sampleTypes e).isSome = true := by
    rw [hS.reg e, hreg]
  obtain ⟨k, htk⟩ := Option.isSome_iff_exists.mp hksome
  have hval : smp.value.getD k 0 = wrap64 (c1 + c2) := by
    rw [hS.val smp hsmpmem e k htk, hsmploc, hks]
  have hress : resolveStack (bs.foldl processBlock Parser.init) x1.stack = some fks := by
    have := resolveStack_of_stackLookups hT hslk
    rw [hb1pred.1] at this
    exact this
  have hfc : ∀ smp' ∈ (bs.foldl processBlock Parser.init).samples,
      (resolveStack (bs.foldl processBlock Parser.init) smp'.locationIDs == some fks)
        = (smp'.locationIDs == x1.stack) := by
    intro smp' hmem'
    have heffloc : hasEff tr smp'.locationIDs = true :=
      (hS.mem_iff smp'.locationIDs).mp ⟨smp', hmem', rfl⟩
    obtain ⟨y, hytr, hy⟩ := List.any_eq_true.mp heffloc
    have hy' : (y.stack == smp'.locationIDs) = true ∧ effEntry y = true := by simpa using hy
    have hys : y.stack = smp'.locationIDs := by simpa using hy'.1
    obtain ⟨bY, hbY, hbYR⟩ := forall₂_mem_right hF hytr
    have hres' : resolveStack (bs.foldl processBlock Parser.init) smp'.locationIDs
        = some (frameKeys bY.frames) := by
      rw [← hys]
      exact resolveStack_of_stackLookups hT hbYR.2.2
    by_cases hkb : frameKeys bY.frames = fks
    · have hxs : y.stack = x1.stack := htrans bY y hbYR hkb
      rw [hres', hkb, ← hys, hxs]
      simp
    · have hxs : y.stack ≠ x1.stack := hdiff bY y hbYR hkb
      rw [hres']
      rw [(show (some (frameKeys bY.frames) == some fks) = false by simpa using hkb)]
      rw [← hys]
      exact (by simpa using hxs : (y.stack == x1.stack) = false).symm
  refine ⟨hS.nodup, smp, k, ?_, htk, hval⟩
  rw [List.filter_congr hfc]
  exact filter_eq_singleton_of_nodup_map hS.nodup hsmpmem hsmploc

end perfscript

namespace perfscript

theorem digitsBranch_pos {D : Option Nat} {v : Int}
    (h : (match D with
      | some n => if n ≤ 2 ^ 63 - 1 then some (Int.ofNat n) else none
      | none => none) = some v) : -(2 ^ 63) ≤ v ∧ v < 2 ^ 63 := by
  cases D with
  | none => simp at h
  | some n =>
    by_cases hn : n ≤ 2 ^ 63 - 1
    · have h2 : some (Int.ofNat n) = some v := by
        rw [← h]
        show some (Int.ofNat n) = if n ≤ 2 ^ 63 - 1 then some (Int.ofNat n) else none
        rw [if_pos hn]
      injection h2 with he
      subst he
      simp only [Int.ofNat_eq_coe]
      constructor <;> omega
    · have h2 : (none : Option Int) = some v := by
        rw [← h]
        show (none : Option Int) = if n ≤ 2 ^ 63 - 1 then some (Int.ofNat n) else none
        rw [if_neg hn]
      cases h2

theorem digitsBranch_neg {D : Option Nat} {v : Int}
    (h : (match D with
      | some n => if n ≤ 2 ^ 63 then some (-(Int.ofNat n : Int)) else none
      | none => none) = some v) : -(2 ^ 63) ≤ v ∧ v < 2 ^ 63 := by
  cases D with
  | none => simp at h
  | some n =>
    by_cases hn : n ≤ 2 ^ 63
    · have h2 : some (-(Int.ofNat n : Int)) = some v := by
        rw [← h]
        show some (-(Int.ofNat n : Int))
          = if n ≤ 2 ^ 63 then some (-(Int.ofNat n : Int)) else none
        rw [if_pos hn]
      injection h2 with he
      subst he
      simp only [Int.ofNat_eq_coe]
      constructor <;> omega
    · have h2 : (none : Option Int) = some v := by
        rw [← h]
        show (none : Option Int) = if n ≤ 2 ^ 63 then some (-(Int.ofNat n : Int)) else none
        rw [if_neg hn]
      cases h2

/-- Every count `strconv.ParseInt(…, 10, 64)` can deliver is an `int64`. -/
theorem parseInt64_range {s : String} {v : Int}
    (h : gostr.parseInt64? s = some v) : -(2 ^ 63) ≤ v ∧ v < 2 ^ 63 := by
  unfold gostr.parseInt64? at h
  split at h
  · exact digitsBranch_pos h
  · exact digitsBranch_neg h
  · exact digitsBranch_pos h

/-- Well-formedness of the loop state: table invariant, the sample
invariant for some processed entry trace, and the pending count in `int64`
range (it is a Go `int64`). -/
def StateOK (ls : LoopState) : Prop :=
  TableInv ls.parser ∧ (∃ es, SInv es ls.parser) ∧
    -(2 ^ 63) ≤ ls.currentCount ∧ ls.currentCount < 2 ^ 63

theorem StateOK_init : StateOK LoopState.init :=
  ⟨TableInv_init, ⟨[], SInv_init rfl rfl⟩, by decide, by decide⟩

/-- A whitespace-only line is skipped outright (`continue`). -/
theorem step_blank {ls : LoopState} {line : String}
    (h : gostr.trimSpace line = "") : step ls line = .ok ls := by
  unfold step
  rw [if_pos (by simp [h])]

/-- `step` fails exactly on a bad header line, regardless of the state. -/
theorem step_error_iff (ls : LoopState) (line : String) :
    (∃ msg, step ls line = .error msg) ↔ badHeader line = true := by
  unfold step badHeader
  by_cases h1 : (gostr.trimSpace line == "") = true
  · rw [if_pos h1]
    constructor
    · intro ⟨msg, hmsg⟩
      cases hmsg
    · intro hbad
      rw [(by simpa using h1 : (gostr.trimSpace line != "") = false)] at hbad
      simp at hbad
  · rw [if_neg h1]
    by_cases h2 : isHeaderLine line = true
    · rw [if_pos h2]
      rw [h2, (by simpa using h1 : (gostr.trimSpace line != "") = true)]
      by_cases h3 : (gostr.fields line).length < 2
      · rw [if_pos h3]
        simp only [Bool.true_and]
        constructor
        · intro _
          simp [h3]
        · intro _
          exact ⟨_, rfl⟩
      · rw [if_neg h3]
        simp only [Bool.true_and]
        cases h4 : gostr.parseInt64? (gostr.trimSpace
            ((gostr.fields line).getD ((gostr.fields line).length - 2) "")) with
        | some v =>
          constructor
          · intro ⟨msg, hmsg⟩
            cases hmsg
          · intro hbad
            simp [h3, h4] at hbad
        | none =>
          constructor
          · intro _
            simp [h4]
          · intro _
            exact ⟨_, rfl⟩
    · rw [if_neg h2]
      constructor
      · intro ⟨msg, hmsg⟩
        by_cases h3 : isFrameLine line = true
        · rw [if_pos h3] at hmsg
          cases h4 : parseFrameLine line with
          | some f =>
            rw [h4] at hmsg
            cases hmsg
          | none =>
            rw [h4] at hmsg
            cases hmsg
        · rw [if_neg h3] at hmsg
          cases hmsg
      · intro hbad
        rw [(by simpa using h2 : isHeaderLine line = false)] at hbad
        simp at hbad

theorem step_ok_of_not_bad {ls : LoopState} {line : String}
    (h : badHeader line = false) : ∃ ls', step ls line = .ok ls' := by
  cases hres : step ls line with
  | ok ls' => exact ⟨ls', rfl⟩
  | error msg =>
    have := (step_error_iff ls line).mp ⟨msg, hres⟩
    rw [h] at this
    cases this

theorem step_preserves {ls ls' : LoopState} {line : String} (h : StateOK ls)
    (hstep : step ls line = .ok ls') : StateOK ls' := by
  obtain ⟨hT, ⟨es, hS⟩, hr1, hr2⟩ := h
  unfold step at hstep
  by_cases h1 : (gostr.trimSpace line == "") = true
  · rw [if_pos h1] at hstep
    injection hstep with heq
    subst heq
    exact ⟨hT, ⟨es, hS⟩, hr1, hr2⟩
  · rw [if_neg h1] at hstep
    by_cases h2 : isHeaderLine line = true
    · rw [if_pos h2] at hstep
      by_cases h3 : (gostr.fields line).length < 2
      · rw [if_pos h3] at hstep
        cases hstep
      · rw [if_neg h3] at hstep
        cases h4 : gostr.parseInt64? (gostr.trimSpace
            ((gostr.fields line).getD ((gostr.fields line).length - 2) "")) with
        | some v =>
          rw [h4] at hstep
          injection hstep with heq
          subst heq
          refine ⟨?_, ?_, (parseInt64_range h4).1, (parseInt64_range h4).2⟩
          · show TableInv (if ls.currentStack.length > 0 then
              addSample ls.parser ls.currentStack ls.currentEventType ls.currentCount
              else ls.parser)
            by_cases h5 : ls.currentStack.length > 0
            · rw [if_pos h5]
              obtain ⟨a1, a2, a3, a4⟩ := addSample_fields ls.parser ls.currentStack
                ls.currentEventType ls.currentCount
              exact TableInv_eqv hT a1 a2 a3 a4
            · rw [if_neg h5]
              exact hT
          · by_cases h5 : ls.currentStack.length > 0
            · refine ⟨es ++ [Entry.mk ls.currentStack ls.currentEventType ls.currentCount], ?_⟩
              show SInv _ (if ls.currentStack.length > 0 then
                addSample ls.parser ls.currentStack ls.currentEventType ls.currentCount
                else ls.parser)
              rw [if_pos h5]
              exact SInv_step hS (Entry.mk ls.currentStack ls.currentEventType ls.currentCount)
                ⟨hr1, hr2⟩
            · refine ⟨es, ?_⟩
              show SInv _ (if ls.currentStack.length > 0 then
                addSample ls.parser ls.currentStack ls.currentEventType ls.currentCount
                else ls.parser)
              rw [if_neg h5]
              exact hS
        | none =>
          rw [h4] at hstep
          cases hstep
    · rw [if_neg h2] at hstep
      by_cases h3 : isFrameLine line = true
      · rw [if_pos h3] at hstep
        cases h4 : parseFrameLine line with
        | some f =>
          rw [h4] at hstep
          injection hstep with heq
          subst heq
          obtain ⟨hT', _, hsm, hst, _⟩ := internFrame_spec hT f
          exact ⟨hT', ⟨es, SInv_eqv hS hsm hst⟩, hr1, hr2⟩
        | none =>
          rw [h4] at hstep
          injection hstep with heq
          subst heq
          exact ⟨hT, ⟨es, hS⟩, hr1, hr2⟩
      · rw [if_neg h3] at hstep
        injection hstep with heq
        subst heq
        exact ⟨hT, ⟨es, hS⟩, hr1, hr2⟩

theorem foldlM_preserves :
    ∀ (lines : List String) (ls : LoopState), StateOK ls →
      ∀ ls', lines.foldlM step ls = .ok ls' → StateOK ls' := by
  intro lines
  induction lines with
  | nil =>
    intro ls h ls' hres
    injection hres with heq
    subst heq
    exact h
  | cons l rest ih =>
    intro ls h ls' hres
    rw [List.foldlM_cons] at hres
    cases hstep : step ls l with
    | error msg =>
      rw [hstep] at hres
      cases hres
    | ok ls1 =>
      rw [hstep] at hres
      exact ih ls1 (step_preserves h hstep) ls' hres

theorem foldlM_error_iff :
    ∀ (lines : List String) (ls : LoopState),
      (∃ msg, lines.foldlM step ls = .error msg) ↔ ∃ l ∈ lines, badHeader l = true := by
  intro lines
  induction lines with
  | nil =>
    intro ls
    constructor
    · intro ⟨msg, hmsg⟩
      cases hmsg
    · intro ⟨l, hl, _⟩
      cases hl
  | cons l rest ih =>
    intro ls
    rw [List.foldlM_cons]
    cases hbad : badHeader l with
    | true =>
      obtain ⟨msg, hmsg⟩ := (step_error_iff ls l).mpr hbad
      rw [hmsg]
      exact iff_of_true ⟨msg, rfl⟩ ⟨l, List.mem_cons_self _ _, hbad⟩
    | false =>
      obtain ⟨ls1, hls1⟩ := @step_ok_of_not_bad ls l hbad
      rw [hls1]
      show (∃ msg, rest.foldlM step ls1 = .error msg) ↔ _
      rw [ih ls1]
      constructor
      · intro ⟨m, hm, hmb⟩
        exact ⟨m, List.mem_cons.mpr (Or.inr hm), hmb⟩
      · intro ⟨m, hm, hmb⟩
        rcases List.mem_cons.mp hm with hml | hmr
        · rw [hml] at hmb
          rw [hmb] at hbad
          cases hbad
        · exact ⟨m, hmr, hmb⟩

/-- `Parse` fails exactly when some line of the input is a bad header. -/
theorem Parse_error_iff (lines : List String) :
    (∃ msg, Parse lines = .error msg) ↔ ∃ l ∈ lines, badHeader l = true := by
  unfold Parse
  cases hres : lines.foldlM step LoopState.init with
  | error msg =>
    constructor
    · intro _
      exact (foldlM_error_iff lines LoopState.init).mp ⟨msg, hres⟩
    · intro _
      exact ⟨msg, rfl⟩
  | ok ls =>
    constructor
    · intro ⟨msg, hmsg⟩
      cases hmsg
    · intro hbad
      obtain ⟨msg, hmsg⟩ := (foldlM_error_iff lines LoopState.init).mpr hbad
      rw [hres] at hmsg
      cases hmsg

/-- Any profile returned by `Parse` satisfies the sample-accounting
invariant for some entry trace. -/
theorem Parse_ok_SInv {lines : List String} {p : Parser}
    (h : Parse lines = .ok p) : TableInv p ∧ ∃ es, SInv es p := by
  unfold Parse at h
  cases hres : lines.foldlM step LoopState.init with
  | error msg =>
    rw [hres] at h
    cases h
  | ok ls =>
    rw [hres] at h
    injection h with heq
    obtain ⟨hT, ⟨es, hS⟩, hr1, hr2⟩ := foldlM_preserves lines LoopState.init StateOK_init ls hres
    subst heq
    by_cases h5 : ls.currentStack.length > 0
    · constructor
      · show TableInv (finalizeMappings (if ls.currentStack.length > 0 then
          addSample ls.parser ls.currentStack ls.currentEventType ls.currentCount
          else ls.parser))
        rw [if_pos h5]
        obtain ⟨a1, a2, a3, a4⟩ := addSample_fields ls.parser ls.currentStack
          ls.currentEventType ls.currentCount
        exact TableInv_eqv hT (by simpa [finalizeMappings] using a1)
          (by simpa [finalizeMappings] using a2) (by simpa [finalizeMappings] using a3)
          (by simpa [finalizeMappings] using a4)
      · refine ⟨es ++ [Entry.mk ls.currentStack ls.currentEventType ls.currentCount], ?_⟩
        show SInv _ (finalizeMappings (if ls.currentStack.length > 0 then
          addSample ls.parser ls.currentStack ls.currentEventType ls.currentCount
          else ls.parser))
        rw [if_pos h5]
        exact SInv_eqv (SInv_step hS
          (Entry.mk ls.currentStack ls.currentEventType ls.currentCount) ⟨hr1, hr2⟩)
          (by simp [finalizeMappings]) (by simp [finalizeMappings])
    · constructor
      · show TableInv (finalizeMappings (if ls.currentStack.length > 0 then
          addSample ls.parser ls.currentStack ls.currentEventType ls.currentCount
          else ls.parser))
        rw [if_neg h5]
        exact TableInv_eqv hT (by simp [finalizeMappings]) (by simp [finalizeMappings])
          (by simp [finalizeMappings]) (by simp [finalizeMappings])
      · refine ⟨es, ?_⟩
        show SInv _ (finalizeMappings (if ls.currentStack.length > 0 then
          addSample ls.parser ls.currentStack ls.currentEventType ls.currentCount
          else ls.parser))
        rw [if_neg h5]
        exact SInv_eqv hS (by simp [finalizeMappings]) (by simp [finalizeMappings])

end perfscript

namespace perfscript

/-- C1 counterexample to the unqualified claim: two stack blocks with
identical frame sequences and the same event but counts 0 and 0 (first
input), or with identical — empty — frame sequences and nonzero counts
(second input), yield a profile with no sample at all, not one sample
holding the sum. -/
theorem merge_skip_counterexample :
    ((Parse ["h: 0 e:", "\ta f1 (/b)", "h: 0 e:", "\ta f1 (/b)"]).map
        (fun p => p.samples)).toOption = some [] ∧
    ((Parse ["h: 3 e:", "h: 4 e:"]).map (fun p => p.samples)).toOption = some [] := by
  exact ⟨by decide, by decide⟩

theorem merge_correctness_witness :
    (([⟨[⟨10, "f", "/b"⟩], "e", 3⟩, ⟨[⟨10, "f", "/b"⟩], "e", 4⟩] : List Block).filter
        (fun b => frameKeys b.frames == [("f", 10)] && b.event == "e")).map
        (fun b => b.count) = [3, 4] ∧
    wrap64 (3 + 4) = 7 ∧
    (((parseBlocks [⟨[⟨10, "f", "/b"⟩], "e", 3⟩,
          ⟨[⟨10, "f", "/b"⟩], "e", 4⟩]).samples.map (fun smp => smp.locationIDs)).Nodup ∧
      ∃ smp k,
        (parseBlocks [⟨[⟨10, "f", "/b"⟩], "e", 3⟩,
            ⟨[⟨10, "f", "/b"⟩], "e", 4⟩]).samples.filter
            (fun smp => resolveStack (parseBlocks [⟨[⟨10, "f", "/b"⟩], "e", 3⟩,
              ⟨[⟨10, "f", "/b"⟩], "e", 4⟩]) smp.locationIDs == some [("f", 10)]) = [smp] ∧
        typeIdx (parseBlocks [⟨[⟨10, "f", "/b"⟩], "e", 3⟩,
            ⟨[⟨10, "f", "/b"⟩], "e", 4⟩]).sampleTypes "e" = some k ∧
        smp.value.getD k 0 = wrap64 (3 + 4)) ∧
    wrap64 (9223372036854775807 + 9223372036854775807) = -2 ∧
    (∃ smp k,
        (parseBlocks [⟨[⟨10, "f", "/b"⟩], "e", 9223372036854775807⟩,
            ⟨[⟨10, "f", "/b"⟩], "e", 9223372036854775807⟩]).samples.filter
            (fun smp => resolveStack
              (parseBlocks [⟨[⟨10, "f", "/b"⟩], "e", 9223372036854775807⟩,
                ⟨[⟨10, "f", "/b"⟩], "e", 9223372036854775807⟩])
              smp.locationIDs == some [("f", 10)]) = [smp] ∧
        typeIdx (parseBlocks [⟨[⟨10, "f", "/b"⟩], "e", 9223372036854775807⟩,
            ⟨[⟨10, "f", "/b"⟩], "e", 9223372036854775807⟩]).sampleTypes "e" = some k ∧
        smp.value.getD k 0 = wrap64 (9223372036854775807 + 9223372036854775807)) :=
  ⟨by decide, by decide,
   merge_correctness _ [("f", 10)] "e" 3 4 (by decide) (by decide) (by decide) (by decide),
   by decide,
   (merge_correctness _ [("f", 10)] "e" 9223372036854775807 9223372036854775807
      (by decide) (by decide) (by decide) (by decide)).2⟩

/-- C2: every sample's value vector is exactly as long as the sample-type
table in any profile `Parse` returns; a first-seen event name appends a new
sample type and zero-pads every existing sample's value vector; and the
concrete two-event run of the spec gives `SampleType = [e1, e2]`,
`Sample(A).Value = [10, 0]`, `Sample(B).Value = [0, 5]`. -/
theorem value_width_invariant :
    (∀ lines p, Parse lines = .ok p →
        ∀ smp ∈ p.samples, smp.value.length = p.sampleTypes.length) ∧
    (∀ (p : Parser) (e : String),
        findIdxA (fun vt => vt.type == e) p.sampleTypes = none →
        (registerType p e).1.sampleTypes = p.sampleTypes ++ [⟨e, "count"⟩] ∧
        (registerType p e).1.samples =
          p.samples.map (fun s => { s with value := s.value ++ [0] })) ∧
    ((Parse ["cmd 1 1.0: 10 e1:", "\ta f1 (/bin)", "cmd 1 1.0: 5 e2:",
        "\tb f2 (/bin)"]).map (fun p => (p.sampleTypes, p.samples))).toOption =
      some ([⟨"e1", "count"⟩, ⟨"e2", "count"⟩], [⟨[1], [10, 0]⟩, ⟨[2], [0, 5]⟩]) := by
  refine ⟨?_, ?_, by decide⟩
  · intro lines p h smp hs
    obtain ⟨_, es, hS⟩ := Parse_ok_SInv h
    exact (hS.wf smp hs).1
  · intro p e h
    unfold registerType
    rw [h]
    exact ⟨rfl, rfl⟩

theorem value_width_witness :
    (registerType { Parser.init with
        sampleTypes := [⟨"a", "count"⟩]
        samples := [⟨[1], [7]⟩] } "b").1.sampleTypes =
      [(⟨"a", "count"⟩ : ValueType)] ++ [⟨"b", "count"⟩] ∧
    (registerType { Parser.init with
        sampleTypes := [⟨"a", "count"⟩]
        samples := [⟨[1], [7]⟩] } "b").1.samples =
      [(⟨[1], [7]⟩ : Sample)].map (fun s => { s with value := s.value ++ [0] }) :=
  value_width_invariant.2.1 _ "b" (by decide)

end perfscript

namespace perfscript

/-- C3: `Parse` fails exactly when some line is a bad header — a non-indented
colon-containing line whose fields do not yield a count (and hence an
event); frame-shaped (indented) lines are never bad headers; a frame line
with fewer than two fields is skipped; an unparsable hex address degrades to
address 0; and the empty input yields the (finalized) empty profile with no
samples and no functions. -/
theorem parse_error_behaviour :
    (∀ lines, (∃ msg, Parse lines = .error msg) ↔ ∃ l ∈ lines, badHeader l = true) ∧
    (∀ l, isFrameLine l = true → badHeader l = false) ∧
    (∀ line, (gostr.fields line).length < 2 → parseFrameLine line = none) ∧
    (∀ line f, parseFrameLine line = some f →
        gostr.parseHexU64? ((gostr.fields line).getD 0 "") = none → f.address = 0) ∧
    Parse [] = .ok (finalizeMappings Parser.init) ∧
    (finalizeMappings Parser.init).samples = [] ∧
    (finalizeMappings Parser.init).functions = [] := by
  refine ⟨Parse_error_iff, ?_, ?_, ?_, rfl, by decide, by decide⟩
  · intro l hf
    have hh : isHeaderLine l = false := by
      simp only [isFrameLine, Bool.or_eq_true] at hf
      rw [isHeaderLine]
      rcases hf with h | h
      · simp [h]
      · simp [h]
    simp [badHeader, hh]
  · intro line h
    simp only [parseFrameLine]
    rw [if_pos h]
  · intro line f h hx
    simp only [parseFrameLine] at h
    by_cases hlen : (gostr.fields line).length < 2
    · rw [if_pos hlen] at h
      cases h
    · rw [if_neg hlen] at h
      injection h with he
      rw [← he]
      show (gostr.parseHexU64? ((gostr.fields line).getD 0 "")).getD 0 = 0
      rw [hx]
      rfl

theorem parse_error_witness :
    (∃ msg, Parse ["\tz f (/b)", "bad:"] = .error msg) ∧
      badHeader "bad:" = true ∧
      isFrameLine "\tz f (/b)" = true ∧ badHeader "\tz f (/b)" = false :=
  ⟨(parse_error_behaviour.1 _).mpr ⟨"bad:", by decide, by decide⟩,
   by decide, by decide, parse_error_behaviour.2.1 _ (by decide)⟩

/-- C9 (amended): a whitespace-only line is skipped by the `continue` at the
top of the scan loop, so `Parse` is invariant under deleting it; a blank
line does not terminate the current stack (the original claim is refuted by
`blank_line_counterexample`, where the frames on either side of a blank line
end up in one sample's stack). -/
theorem blank_line_ignored (xs ys : List String) (bl : String)
    (h : gostr.trimSpace bl = "") : Parse (xs ++ bl :: ys) = Parse (xs ++ ys) := by
  have key2 : (xs ++ bl :: ys).foldlM step LoopState.init =
      (xs ++ ys).foldlM step LoopState.init := by
    rw [List.foldlM_append, List.foldlM_append]
    cases hx : xs.foldlM step LoopState.init with
    | error e => rfl
    | ok ls =>
      show (bl :: ys).foldlM step ls = ys.foldlM step ls
      rw [List.foldlM_cons, step_blank h]
      rfl
  unfold Parse
  rw [key2]

/-- C9 counterexample to the blank-line-terminates-stack reading: with a
header, frame `f1`, a blank line, then frame `f2`, the single finalized
sample's stack is `[1, 2]` — location 2 (function `f2`) sits in the same
stack as location 1 (function `f1`), so the blank line did not terminate
the stack. -/
theorem blank_line_counterexample :
    ((Parse ["h: 5 e:", "\ta f1 (/b)", "", "\tb f2 (/b)"]).map
        (fun p => (p.samples, p.functions,
          p.locations.map (fun l => (l.id, l.functionID))))).toOption =
      some ([⟨[1, 2], [5]⟩], [⟨1, "f1"⟩, ⟨2, "f2"⟩], [(1, 1), (2, 2)]) := by
  decide

theorem blank_line_witness :
    Parse (["h: 5 e:", "\ta f1 (/b)"] ++ "" :: ["\tb f2 (/b)"]) =
      Parse (["h: 5 e:", "\ta f1 (/b)"] ++ ["\tb f2 (/b)"]) :=
  blank_line_ignored ["h: 5 e:", "\ta f1 (/b)"] ["\tb f2 (/b)"] "" (by decide)

end perfscript

namespace perfscript

theorem getD_ne_of_not_mem {c d : Char} {l : List Char} (h : c ∉ l) {j : Nat}
    (hj : j < l.length) : l.getD j d ≠ c := by
  intro he
  rw [List.getD_eq_getElem l d hj] at he
  exact h (he ▸ List.getElem_mem ..)

theorem lastIndexAux_not_mem {c : Char} :
    ∀ (cs : List Char) (i : Nat) (best : Option Nat), c ∉ cs →
      lastIndexAux cs c i best = best := by
  intro cs
  induction cs with
  | nil => intro i best _; rfl
  | cons x rest ih =>
    intro i best h
    simp only [List.mem_cons, not_or] at h
    have hx : (x == c) = false := by
      simp only [beq_eq_false_iff_ne]
      exact fun e => h.1 e.symm
    show lastIndexAux rest c (i + 1) (if x == c then some i else best) = best
    rw [hx]
    simpa using ih (i + 1) best h.2

theorem lastIndexAux_mem {c : Char} :
    ∀ (cs : List Char), c ∈ cs → ∀ (i : Nat) (best : Option Nat),
      ∃ k, lastIndexAux cs c i best = some (i + k) ∧ k < cs.length ∧
        cs.getD k ' ' = c ∧ ∀ j, k < j → j < cs.length → cs.getD j ' ' ≠ c := by
  intro cs
  induction cs with
  | nil => intro h; cases h
  | cons x rest ih =>
    intro h i best
    by_cases hr : c ∈ rest
    · obtain ⟨k, hres, hk, hget, hlast⟩ := ih hr (i + 1) (if x == c then some i else best)
      refine ⟨k + 1, ?_, by simpa using Nat.succ_lt_succ hk, by simpa using hget, ?_⟩
      · show lastIndexAux rest c (i + 1) (if x == c then some i else best) = some (i + (k + 1))
        rw [hres]
        congr 1
        omega
      · intro j hjk hjlen
        match j with
        | j' + 1 =>
          have := hlast j' (by omega) (by simpa using hjlen)
          simpa using this
    · have hx : c = x := by
        rcases List.mem_cons.mp h with h1 | h2
        · exact h1
        · exact absurd h2 hr
      have hxc : (x == c) = true := by simp [hx]
      refine ⟨0, ?_, by simp, by simp [hx.symm], ?_⟩
      · show lastIndexAux rest c (i + 1) (if x == c then some i else best) = some (i + 0)
        rw [hxc]
        simpa using lastIndexAux_not_mem rest (i + 1) (some i) hr
      · intro j hj hjlen
        match j with
        | j' + 1 =>
          have := getD_ne_of_not_mem (d := ' ') hr (by simpa using hjlen)
          simpa using this

theorem lastIndexOfChar_spec {s : String} {c : Char} {i : Nat}
    (h : lastIndexOfChar s c = some i) :
    i < s.data.length ∧ s.data.getD i ' ' = c ∧
      ∀ j, i < j → j < s.data.length → s.data.getD j ' ' ≠ c := by
  by_cases hm : c ∈ s.data
  · obtain ⟨k, hres, hk, hget, hlast⟩ := lastIndexAux_mem s.data hm 0 none
    rw [lastIndexOfChar] at h
    rw [h] at hres
    injection hres with he
    have hik : i = k := by omega
    subst hik
    exact ⟨hk, hget, hlast⟩
  · rw [lastIndexOfChar, lastIndexAux_not_mem s.data 0 none hm] at h
    cases h

/-- C10: the symbol token of a frame line is truncated at its last `+`
whenever that `+` occurs after the first character (whatever follows it —
not only `+0x<hex>` suffixes), and kept whole when there is no `+` or its
only role is the first character. `lastIndexOfChar` really is the index of
the last occurrence; `parseFrameLine` records exactly `stripOffset` of the
second field; `"operator+"` becomes `"operator"` and `"+foo"` is kept. -/
theorem strip_at_last_plus :
    (∀ (s : String) (i : Nat), lastIndexOfChar s '+' = some i →
        s.data.getD i ' ' = '+' ∧
          ∀ j, i < j → j < s.data.length → s.data.getD j ' ' ≠ '+') ∧
    (∀ (s : String) (i : Nat), lastIndexOfChar s '+' = some i → 0 < i →
        stripOffset s = String.mk (s.data.take i)) ∧
    (∀ s : String, lastIndexOfChar s '+' = none ∨ lastIndexOfChar s '+' = some 0 →
        stripOffset s = s) ∧
    (∀ line f, parseFrameLine line = some f →
        f.funcName = stripOffset ((gostr.fields line).getD 1 "")) ∧
    stripOffset "operator+" = "operator" ∧ stripOffset "+foo" = "+foo" := by
  refine ⟨?_, ?_, ?_, ?_, by decide, by decide⟩
  · intro s i h
    exact ⟨(lastIndexOfChar_spec h).2.1, (lastIndexOfChar_spec h).2.2⟩
  · intro s i h hi
    rw [stripOffset, h]
    show (if i > 0 then String.mk (s.data.take i) else s) = String.mk (s.data.take i)
    rw [if_pos hi]
  · intro s h
    rcases h with h | h
    · rw [stripOffset, h]
    · rw [stripOffset, h]
      rfl
  · intro line f h
    simp only [parseFrameLine] at h
    by_cases hlen : (gostr.fields line).length < 2
    · rw [if_pos hlen] at h
      cases h
    · rw [if_neg hlen] at h
      injection h with he
      rw [← he]

theorem strip_at_last_witness :
    lastIndexOfChar "a+b+c" '+' = some 3 ∧ stripOffset "a+b+c" = "a+b" := by
  refine ⟨by decide, ?_⟩
  have h := strip_at_last_plus.2.1 "a+b+c" 3 (by decide) (by decide)
  rw [h]
  decide

end perfscript

namespace gostr

/-- `strings.Join(elems, sep)`. -/
def join (elems : List String) (sep : String) : String :=
  match elems with
  | [] => ""
  | e :: rest => rest.foldl (fun acc x => acc ++ sep ++ x) e

/-- `fmt.Sprintf("%d", n)` for a Go `int`. -/
def intRepr (n : Int) : String :=
  if n < 0 then "-" ++ decRepr n.natAbs else decRepr n.natAbs

end gostr

namespace shellescape

/-- A character the `al.essio.dev/pkg/shellescape` unsafe pattern does not
match: an ASCII word character (`\w` in Go's regexp) or one of
`@` `%` `+` `=` `:` `,` `.` `/` `-`. -/
def safeChar (c : Char) : Bool :=
  ('a' ≤ c && c ≤ 'z') || ('A' ≤ c && c ≤ 'Z') || ('0' ≤ c && c ≤ '9') ||
    c == '_' || c == '@' || c == '%' || c == '+' || c == '=' || c == ':' ||
    c == ',' || c == '.' || c == '/' || c == '-'

/-- `strings.ReplaceAll(s, "'", "'\"'\"'")`. -/
def escQuotes (s : String) : String :=
  String.mk (s.data.flatMap (fun c =>
    if c = '\'' then ['\'', '"', '\'', '"', '\''] else [c]))

/-- `shellescape.Quote`: empty becomes `''`; a string with any unsafe
character is wrapped in single quotes with each `'` escaped; a safe string
is returned as is. -/
def Quote (s : String) : String :=
  if s.data.length == 0 then "''"
  else if s.data.any (fun c => !safeChar c) then "'" ++ escQuotes s ++ "'"
  else s

end shellescape

namespace perf

/-- `StatOptions` (part_003 revision of stat.go, with the `Detail` flag). -/
structure StatOptions where
  events : List String
  pids : List String
  duration : Int
  binary : String
  args : List String
  detail : Bool
deriving Repr, DecidableEq

/-- `BuildStatArgs` (part_003 revision): `stat`, optional `-d`, one `-e` per
trimmed event, then either `-p pid,…` with `sleep <duration>` or
`-- binary args…`. -/
def BuildStatArgs (opts : StatOptions) : List String :=
  let args := ["stat"]
  let args := if opts.detail then args ++ ["-d"] else args
  let args := if opts.events.length > 0 then
      opts.events.foldl (fun a event => a ++ ["-e", gostr.trimSpace event]) args
    else args
  if opts.pids.length > 0 then
    args ++ ["-p", gostr.join opts.pids ","] ++ ["sleep", gostr.intRepr opts.duration]
  else if opts.binary != "" then
    (args ++ ["--", opts.binary]) ++ opts.args
  else args

/-- `BuildStatCommand` (part_003 revision): `parts := ["perf"]`, append
`shellescape.Quote(arg)` for each argument of `BuildStatArgs`, join with
spaces. -/
def BuildStatCommand (opts : StatOptions) : String :=
  let args := BuildStatArgs opts
  let parts := ["perf"]
  let parts := args.foldl (fun ps arg => ps ++ [shellescape.Quote arg]) parts
  gostr.join parts " "

/-- The spec's wording of the remote builder: the local argv's elements,
each shell-escaped, after the tool name, joined with spaces. -/
def specRemoteStatCommand (opts : StatOptions) : String :=
  gostr.join ("perf" :: (BuildStatArgs opts).map shellescape.Quote) " "

theorem foldl_append_quote (l : List String) :
    ∀ acc : List String,
      l.foldl (fun ps arg => ps ++ [shellescape.Quote arg]) acc =
        acc ++ l.map shellescape.Quote := by
  induction l with
  | nil => intro acc; simp
  | cons x rest ih =>
    intro acc
    rw [List.foldl_cons, ih, List.map_cons]
    simp

/-- C6: for every options value, the remote stat command string equals the
tool name followed by the shell-escaped elements of the local argv, joined
with spaces — the remote builder is exactly the escaped local builder. -/
theorem stat_command_refinement (opts : StatOptions) :
    BuildStatCommand opts = specRemoteStatCommand opts := by
  show gostr.join ((BuildStatArgs opts).foldl
      (fun ps arg => ps ++ [shellescape.Quote arg]) ["perf"]) " " = _
  rw [foldl_append_quote]
  rfl

theorem stat_command_refinement_witness :
    BuildStatCommand ⟨["cycles", " instructions"], ["12", "34"], 7, "", [], true⟩ =
      specRemoteStatCommand ⟨["cycles", " instructions"], ["12", "34"], 7, "", [], true⟩ ∧
    BuildStatCommand ⟨["cycles", " instructions"], ["12", "34"], 7, "", [], true⟩ =
      "perf stat -d -e cycles -e instructions -p 12,34 sleep 7" ∧
    BuildStatCommand ⟨[], [], 0, "/x/my app", ["a'b"], false⟩ =
      "perf stat -- '/x/my app' 'a'\"'\"'b'" :=
  ⟨stat_command_refinement _, by decide, by decide⟩

end perf

namespace gopath

/-- Go `filepath.Base` (unix): empty path gives ".", trailing slashes are
stripped, the element after the last remaining slash is returned, and a
path of only slashes gives "/". -/
def Base (path : String) : String :=
  if path = "" then "."
  else
    let trimmed := (path.data.reverse.dropWhile (fun c => c = '/')).reverse
    if trimmed = [] then "/"
    else String.mk (trimmed.reverse.takeWhile (fun c => c ≠ '/')).reverse

end gopath

namespace cli

/-- The pprof profile as `rewriteProfilePaths` sees it. -/
structure Profile where
  sampleTypes : List perfscript.ValueType
  samples : List perfscript.Sample
  locations : List perfscript.Location
  functions : List perfscript.Function
  mappings : List perfscript.Mapping
deriving Repr, DecidableEq

/-- The per-mapping body of the `rewriteProfilePaths` loop (part_002
revision): skip mappings whose file starts with `[`; when the file's
basename equals the original binary's basename, point the file at the
archived binary. -/
def rewriteMapping (destBinary originalBasename : String)
    (m : perfscript.Mapping) : perfscript.Mapping :=
  if gostr.hasPrefix m.file "[" then m
  else if gopath.Base m.file == originalBasename then { m with file := destBinary }
  else m

/-- The pure rewrite `rewriteProfilePaths` performs on the parsed profile
(part_002 revision; reading, logging and re-serialising aside). -/
def rewriteProfilePaths (prof : Profile) (destBinary originalBasename : String) : Profile :=
  { prof with mappings := prof.mappings.map (rewriteMapping destBinary originalBasename) }

/-- C7: `rewriteProfilePaths` keeps samples, locations, functions and sample
types untouched, and maps each mapping pointwise: a `[`-prefixed
pseudo-mapping is untouched, a mapping whose basename equals the original
binary's basename gets the archived path (all other fields kept), and every
other mapping is untouched. -/
theorem rewrite_profile_paths_spec (prof : Profile) (dest obase : String) :
    (rewriteProfilePaths prof dest obase).samples = prof.samples ∧
    (rewriteProfilePaths prof dest obase).locations = prof.locations ∧
    (rewriteProfilePaths prof dest obase).functions = prof.functions ∧
    (rewriteProfilePaths prof dest obase).sampleTypes = prof.sampleTypes ∧
    List.Forall₂ (fun m m' : perfscript.Mapping =>
        m'.id = m.id ∧ m'.start = m.start ∧ m'.limit = m.limit ∧
        (gostr.hasPrefix m.file "[" = true → m' = m) ∧
        (gostr.hasPrefix m.file "[" = false → gopath.Base m.file = obase →
          m'.file = dest) ∧
        (gostr.hasPrefix m.file "[" = false → gopath.Base m.file ≠ obase → m' = m))
      prof.mappings (rewriteProfilePaths prof dest obase).mappings := by
  refine ⟨rfl, rfl, rfl, rfl, ?_⟩
  show List.Forall₂ _ prof.mappings (prof.mappings.map (rewriteMapping dest obase))
  induction prof.mappings with
  | nil => exact List.Forall₂.nil
  | cons m rest ih =>
    refine List.Forall₂.cons ?_ ih
    unfold rewriteMapping
    by_cases hb : gostr.hasPrefix m.file "[" = true
    · rw [if_pos hb]
      refine ⟨rfl, rfl, rfl, fun _ => rfl, ?_, fun _ _ => rfl⟩
      intro hb' _
      rw [hb] at hb'
      cases hb'
    · rw [if_neg hb]
      by_cases he : gopath.Base m.file == obase
      · rw [if_pos he]
        refine ⟨rfl, rfl, rfl, ?_, fun _ _ => rfl, ?_⟩
        · intro hb'
          exact absurd hb' hb
        · intro _ hne
          exact absurd (eq_of_beq he) hne
      · rw [if_neg he]
        refine ⟨rfl, rfl, rfl, fun hb' => absurd hb' hb, ?_, fun _ _ => rfl⟩
        intro _ heq
        exact absurd (beq_iff_eq.mpr heq) he

theorem rewrite_profile_paths_witness :
    (rewriteProfilePaths
        ⟨[⟨"e", "count"⟩], [⟨[1], [2]⟩], [], [],
          [⟨1, "[kernel.kallsyms]", 0, 0⟩, ⟨2, "/usr/bin/app", 0, 0⟩,
           ⟨3, "/opt/other", 0, 0⟩]⟩
        "/runs/r1/k7.app.binary" "app").mappings =
      [⟨1, "[kernel.kallsyms]", 0, 0⟩, ⟨2, "/runs/r1/k7.app.binary", 0, 0⟩,
       ⟨3, "/opt/other", 0, 0⟩] ∧
    (rewriteProfilePaths
        ⟨[⟨"e", "count"⟩], [⟨[1], [2]⟩], [], [],
          [⟨1, "[kernel.kallsyms]", 0, 0⟩, ⟨2, "/usr/bin/app", 0, 0⟩,
           ⟨3, "/opt/other", 0, 0⟩]⟩
        "/runs/r1/k7.app.binary" "app").samples = [⟨[1], [2]⟩] :=
  ⟨by decide,
   (rewrite_profile_paths_spec
      ⟨[⟨"e", "count"⟩], [⟨[1], [2]⟩], [], [],
        [⟨1, "[kernel.kallsyms]", 0, 0⟩, ⟨2, "/usr/bin/app", 0, 0⟩,
         ⟨3, "/opt/other", 0, 0⟩]⟩ "/runs/r1/k7.app.binary" "app").1⟩

end cli

namespace gostr

/-- Helper of `indexOfSubstr`: first index at or after position `i` where
`needle` is a prefix of the remaining text. -/
def firstIndexAux (needle : List Char) : List Char → Nat → Option Nat
  | [], i => if needle = [] then some i else none
  | c :: rest, i =>
    if needle.isPrefixOf (c :: rest) then some i
    else firstIndexAux needle rest (i + 1)

/-- Go `strings.Index(s, sub)` (as an `Option`; Go returns `-1` for
`none`). -/
def indexOfSubstr (s sub : String) : Option Nat :=
  firstIndexAux sub.data s.data 0

/-- Go `strings.Contains(s, sub)`. -/
def containsSubstr (s sub : String) : Bool :=
  (indexOfSubstr s sub).isSome

end gostr

namespace k8s

/-- `stripContainerIDPrefix` (k8s/client.go): everything after the first
`://`, or the identifier unchanged when it has none. -/
def stripContainerIDPrefix (containerID : String) : String :=
  match gostr.indexOfSubstr containerID "://" with
  | some idx => String.mk (containerID.data.drop (idx + 3))
  | none => containerID

end k8s

namespace cli

/-- Bytewise (`LC_ALL=C`) line order of `sort`: true when `a` comes
strictly before `b`. -/
def strLt : List Char → List Char → Bool
  | [], [] => false
  | [], _ :: _ => true
  | _ :: _, [] => false
  | a :: as, b :: bs => if a < b then true else if b < a then false else strLt as bs

/-- Sorted-unique insertion (byte order, as `sort -u` under `LC_ALL=C`
orders ASCII lines). -/
def insertStr (x : String) : List String → List String
  | [] => [x]
  | y :: ys =>
    if x = y then y :: ys
    else if strLt x.data y.data then x :: y :: ys
    else y :: insertStr x ys

/-- `sort -u` over the lines. -/
def sortU (l : List String) : List String := l.foldr insertStr []

/-- The remote pipeline of `findPIDsForContainers` (attach.go line 487),
`grep -l ID /proc/X/cgroup | cut -dSLASH -f3 | sort -u`, over the per-process
cgroup table (procfs entry name, cgroup file content): `grep -l` keeps the
files whose content contains the ID, `cut` field 3 of the path is the entry
name, `sort -u` sorts and dedups. -/
def cgroupPipeline (cgroups : List (String × String)) (containerID : String) : List String :=
  sortU ((cgroups.filter (fun pc => gostr.containsSubstr pc.2 containerID)).map
    (fun pc => pc.1))

/-- The Go-side loop of `findPIDsForContainers` (attach.go lines 497–502):
keep the output lines that are not empty, `self` or `thread-self`. -/
def findPIDsForContainer (cgroups : List (String × String)) (containerID : String) :
    List String :=
  (cgroupPipeline cgroups containerID).filter
    (fun line => line != "" && line != "self" && line != "thread-self")

/-- The spec's `ResolvePIDs`: strip the runtime-URI prefix from the
container identifier (`stripContainerIDPrefix`, k8s/client.go), then find
the processes whose cgroup descriptor contains the remaining identifier
(`findPIDsForContainers`, attach.go). -/
def ResolvePIDs (cgroups : List (String × String)) (containerID : String) : List String :=
  findPIDsForContainer cgroups (k8s.stripContainerIDPrefix containerID)

theorem mem_insertStr (a x : String) :
    ∀ l : List String, a ∈ insertStr x l ↔ a = x ∨ a ∈ l := by
  intro l
  induction l with
  | nil => simp [insertStr]
  | cons y ys ih =>
    unfold insertStr
    by_cases hxy : x = y
    · rw [if_pos hxy]
      subst hxy
      simp only [List.mem_cons]
      tauto
    · rw [if_neg hxy]
      by_cases hlt : strLt x.data y.data = true
      · rw [if_pos hlt]
        exact List.mem_cons
      · rw [if_neg hlt]
        simp only [List.mem_cons, ih]
        tauto

theorem mem_sortU (a : String) : ∀ l : List String, a ∈ sortU l ↔ a ∈ l := by
  intro l
  induction l with
  | nil => simp [sortU]
  | cons x xs ih =>
    show a ∈ insertStr x (sortU xs) ↔ _
    rw [mem_insertStr, ih]
    simp

/-- C8: a process identifier is returned exactly when it is none of the
pseudo-entries `""`, `self`, `thread-self` and some cgroup descriptor of
that process contains the identifier left after stripping the runtime-URI
prefix; stripping turns `containerd://abc123` into `abc123`; and on the
spec's three-entry table (and on one where the `self` pseudo-entry also
matches) the result is exactly `["200"]`. -/
theorem resolve_pids_spec :
    (∀ (cgroups : List (String × String)) (cid pid : String),
        pid ∈ ResolvePIDs cgroups cid ↔
          ((pid != "" && pid != "self" && pid != "thread-self") = true ∧
           ∃ content, (pid, content) ∈ cgroups ∧
             gostr.containsSubstr content (k8s.stripContainerIDPrefix cid) = true)) ∧
    k8s.stripContainerIDPrefix "containerd://abc123" = "abc123" ∧
    ResolvePIDs [("100", "0::/kubepods/pod1/other"), ("200", "0::/kubepods/pod1/abc123"),
        ("self", "0::/kubepods/pod1/zzz")] "containerd://abc123" = ["200"] ∧
    ResolvePIDs [("100", "0::/kubepods/pod1/other"), ("200", "0::/kubepods/pod1/abc123"),
        ("self", "0::/kubepods/pod1/abc123")] "containerd://abc123" = ["200"] := by
  refine ⟨?_, by decide, by decide, by decide⟩
  intro cgroups cid pid
  unfold ResolvePIDs findPIDsForContainer cgroupPipeline
  rw [List.mem_filter, mem_sortU, List.mem_map]
  constructor
  · intro ⟨⟨pc, hpc, hfst⟩, hpred⟩
    rw [List.mem_filter] at hpc
    refine ⟨hpred, pc.2, ?_, hpc.2⟩
    rw [← hfst]
    exact hpc.1
  · intro ⟨hpred, content, hmem, hcont⟩
    exact ⟨⟨(pid, content), List.mem_filter.mpr ⟨hmem, hcont⟩, rfl⟩, hpred⟩

theorem resolve_pids_witness :
    "200" ∈ ResolvePIDs [("100", "0::/a"), ("200", "0::/kubepods/abc123")]
      "containerd://abc123" :=
  (resolve_pids_spec.1 _ _ _).mpr ⟨by decide, "0::/kubepods/abc123", by decide, by decide⟩

end cli

namespace sha256

/-- Truncation to a 32-bit word. -/
def u32 (x : Nat) : Nat := x % 2 ^ 32

/-- 32-bit right rotation. -/
def rotr (n x : Nat) : Nat := u32 ((x >>> n) ||| (x <<< (32 - n)))

/-- FIPS 180-4 `Ch`. -/
def ch (x y z : Nat) : Nat := (x &&& y) ^^^ ((x ^^^ (2 ^ 32 - 1)) &&& z)

/-- FIPS 180-4 `Maj`. -/
def maj (x y z : Nat) : Nat := (x &&& y) ^^^ (x &&& z) ^^^ (y &&& z)

/-- FIPS 180-4 `Σ0`. -/
def bigSigma0 (x : Nat) : Nat := rotr 2 x ^^^ rotr 13 x ^^^ rotr 22 x

/-- FIPS 180-4 `Σ1`. -/
def bigSigma1 (x : Nat) : Nat := rotr 6 x ^^^ rotr 11 x ^^^ rotr 25 x

/-- FIPS 180-4 `σ0`. -/
def smallSigma0 (x : Nat) : Nat := rotr 7 x ^^^ rotr 18 x ^^^ (x >>> 3)

/-- FIPS 180-4 `σ1`. -/
def smallSigma1 (x : Nat) : Nat := rotr 17 x ^^^ rotr 19 x ^^^ (x >>> 10)

/-- The 64 round constants. -/
def K : List Nat :=
  [1116352408, 1899447441, 3049323471, 3921009573, 961987163, 1508970993,
   2453635748, 2870763221, 3624381080, 310598401, 607225278, 1426881987,
   1925078388, 2162078206, 2614888103, 3248222580, 3835390401, 4022224774,
   264347078, 604807628, 770255983, 1249150122, 1555081692, 1996064986,
   2554220882, 2821834349, 2952996808, 3210313671, 3336571891, 3584528711,
   113926993, 338241895, 666307205, 773529912, 1294757372, 1396182291,
   1695183700, 1986661051, 2177026350, 2456956037, 2730485921, 2820302411,
   3259730800, 3345764771, 3516065817, 3600352804, 4094571909, 275423344,
   430227734, 506948616, 659060556, 883997877, 958139571, 1322822218,
   1537002063, 1747873779, 1955562222, 2024104815, 2227730452, 2361852424,
   2428436474, 2756734187, 3204031479, 3329325298]

/-- The eight working variables / hash state. -/
structure Digest where
  a : Nat
  b : Nat
  c : Nat
  d : Nat
  e : Nat
  f : Nat
  g : Nat
  h : Nat
deriving Repr, DecidableEq

/-- The initial hash value `H(0)`. -/
def H0 : Digest :=
  ⟨1779033703, 3144134277, 1013904242, 2773480762,
   1359893119, 2600822924, 528734635, 1541459225⟩

/-- Big-endian byte rendering of `n` on `k` bytes. -/
def beBytes : Nat → Nat → List Nat
  | 0, _ => []
  | k + 1, n => beBytes k (n / 256) ++ [n % 256]

/-- Message-schedule extension: append `W[t] = σ1(W[t-2]) + W[t-7] + σ0(W[t-15]) + W[t-16]`, `n` times. -/
def wAux (w : List Nat) : Nat → List Nat
  | 0 => w
  | n + 1 =>
    let t := u32 (smallSigma1 (w.getD (w.length - 2) 0) + w.getD (w.length - 7) 0 +
      smallSigma0 (w.getD (w.length - 15) 0) + w.getD (w.length - 16) 0)
    wAux (w ++ [t]) n

/-- One compression round on the working variables. -/
def compressStep (st : Digest) (kw : Nat × Nat) : Digest :=
  let t1 := u32 (st.h + bigSigma1 st.e + ch st.e st.f st.g + kw.1 + kw.2)
  let t2 := u32 (bigSigma0 st.a + maj st.a st.b st.c)
  ⟨u32 (t1 + t2), st.a, st.b, st.c, u32 (st.d + t1), st.e, st.f, st.g⟩

/-- Process one 16-word block: extend the schedule, run 64 rounds, add the
result into the incoming hash value. -/
def compressBlock (hv : Digest) (block : List Nat) : Digest :=
  let w := wAux block 48
  let st := (K.zip w).foldl compressStep hv
  ⟨u32 (hv.a + st.a), u32 (hv.b + st.b), u32 (hv.c + st.c), u32 (hv.d + st.d),
   u32 (hv.e + st.e), u32 (hv.f + st.f), u32 (hv.g + st.g), u32 (hv.h + st.h)⟩

/-- FIPS 180-4 padding: `0x80`, zeros to 56 mod 64 bytes, the bit length on
8 big-endian bytes. -/
def padMessage (msg : List Nat) : List Nat :=
  msg ++ [0x80] ++ List.replicate ((119 - msg.length % 64) % 64) 0 ++
    beBytes 8 (msg.length * 8)

/-- Big-endian 32-bit words of a byte stream. -/
def toWords : List Nat → List Nat
  | b0 :: b1 :: b2 :: b3 :: rest =>
    (((b0 * 256 + b1) * 256 + b2) * 256 + b3) :: toWords rest
  | _ => []

/-- 16-word blocks (`fuel` bounds the recursion; `ws.length` suffices). -/
def chunksAux : Nat → List Nat → List (List Nat)
  | 0, _ => []
  | _, [] => []
  | n + 1, ws => ws.take 16 :: chunksAux n (ws.drop 16)

/-- The digest as 32 bytes. -/
def digestBytes (d : Digest) : List Nat :=
  beBytes 4 d.a ++ beBytes 4 d.b ++ beBytes 4 d.c ++ beBytes 4 d.d ++
    beBytes 4 d.e ++ beBytes 4 d.f ++ beBytes 4 d.g ++ beBytes 4 d.h

/-- `sha256.Sum256` over a byte list. -/
def sum256 (msg : List Nat) : List Nat :=
  let padded := padMessage msg
  let ws := toWords padded
  digestBytes ((chunksAux ws.length ws).foldl compressBlock H0)

end sha256

namespace base32

/-- The base32 standard alphabet. -/
def b32char (n : Nat) : Char :=
  "ABCDEFGHIJKLMNOPQRSTUVWXYZ234567".data.getD n 'A'

/-- The bits of one byte, most significant first. -/
def byteBits (b : Nat) : List Nat :=
  [b / 128 % 2, b / 64 % 2, b / 32 % 2, b / 16 % 2, b / 8 % 2, b / 4 % 2,
   b / 2 % 2, b % 2]

/-- 5-bit groups (`fuel` bounds the recursion; `bits.length` suffices). -/
def chunk5Aux : Nat → List Nat → List (List Nat)
  | 0, _ => []
  | _, [] => []
  | n + 1, bits => bits.take 5 :: chunk5Aux n (bits.drop 5)

/-- A bit group's value, the final partial group zero-padded on the right. -/
def quantum (bits : List Nat) : Nat :=
  bits.foldl (fun a b => a * 2 + b) 0 * 2 ^ (5 - bits.length)

/-- `base32.StdEncoding.WithPadding(base32.NoPadding).EncodeToString`. -/
def encodeNoPad (bytes : List Nat) : String :=
  let bits := bytes.flatMap byteBits
  String.mk ((chunk5Aux bits.length bits).map (fun g => b32char (quantum g)))

end base32

namespace gostr

/-- `strings.ToLower` on ASCII text. -/
def toLower (s : String) : String :=
  String.mk (s.data.map (fun c =>
    if 'A' ≤ c ∧ c ≤ 'Z' then Char.ofNat (c.toNat + 32) else c))

end gostr

namespace perf

/-- The pure core of `hashLocalBinary`: the lowercase no-padding base32
rendering of the SHA-256 hash of the file's bytes. -/
def hashLocalBinary (data : List Nat) : String :=
  gostr.toLower (base32.encodeNoPad (sha256.sum256 data))

/-- The artifact storage key built in `ConvertPerfToPprof`:
`hash + "." + basename + ".binary"`. -/
def binaryArtifactKey (data : List Nat) (binaryPath : String) : String :=
  hashLocalBinary data ++ "." ++ gopath.Base binaryPath ++ ".binary"

end perf

namespace sha256

theorem beBytes_length : ∀ k n, (beBytes k n).length = k := by
  intro k
  induction k with
  | zero => intro n; rfl
  | succ m ih =>
    intro n
    show (beBytes m (n / 256) ++ [n % 256]).length = m + 1
    rw [List.length_append, ih]
    rfl

theorem digestBytes_length (d : Digest) : (digestBytes d).length = 32 := by
  show (beBytes 4 d.a ++ beBytes 4 d.b ++ beBytes 4 d.c ++ beBytes 4 d.d ++
    beBytes 4 d.e ++ beBytes 4 d.f ++ beBytes 4 d.g ++ beBytes 4 d.h).length = 32
  simp [List.length_append, beBytes_length]

theorem sum256_length (msg : List Nat) : (sum256 msg).length = 32 := by
  unfold sum256
  exact digestBytes_length _

end sha256

namespace base32

theorem bits_length : ∀ bytes : List Nat, (bytes.flatMap byteBits).length = 8 * bytes.length := by
  intro bytes
  induction bytes with
  | nil => rfl
  | cons b rest ih =>
    rw [List.flatMap_cons, List.length_append, ih]
    show 8 + 8 * rest.length = 8 * (rest.length + 1)
    omega

theorem chunk5Aux_length :
    ∀ (fuel : Nat) (bits : List Nat), bits.length ≤ fuel →
      (chunk5Aux fuel bits).length = (bits.length + 4) / 5 := by
  intro fuel
  induction fuel with
  | zero =>
    intro bits h
    have : bits = [] := List.eq_nil_of_length_eq_zero (Nat.le_zero.mp h)
    subst this
    rfl
  | succ m ih =>
    intro bits h
    cases bits with
    | nil => rfl
    | cons b rest =>
      show ((b :: rest).take 5 :: chunk5Aux m ((b :: rest).drop 5)).length = _
      have hlen : (b :: rest).length = rest.length + 1 := rfl
      rw [List.length_cons, ih _ (by
        rw [List.length_drop]
        omega)]
      rw [List.length_drop]
      omega

theorem encodeNoPad_length (bytes : List Nat) :
    (encodeNoPad bytes).data.length = (8 * bytes.length + 4) / 5 := by
  unfold encodeNoPad
  rw [List.length_map, chunk5Aux_length _ _ (Nat.le_refl _), bits_length]

end base32

namespace perf

theorem hashLocalBinary_length (data : List Nat) :
    (hashLocalBinary data).data.length = 52 := by
  unfold hashLocalBinary gostr.toLower
  rw [List.length_map, base32.encodeNoPad_length, sha256.sum256_length]

set_option maxRecDepth 8000 in
/-- C4: the artifact key is `digest ++ "." ++ basename ++ ".binary"`; the
digest is always 52 characters and is a function of the file's bytes only
(the first 52 characters of the key are the same whatever the path), so
identical content under any paths with a common basename yields the
identical key; the SHA-256 core matches the FIPS 180-4 test vector for
`"abc"`; and a single differing byte yields a different digest and key. -/
theorem artifact_key_spec :
    (∀ (data : List Nat) (path : String),
        binaryArtifactKey data path =
          hashLocalBinary data ++ "." ++ gopath.Base path ++ ".binary") ∧
    (∀ data : List Nat, (hashLocalBinary data).data.length = 52) ∧
    (∀ (data : List Nat) (p1 p2 : String),
        (binaryArtifactKey data p1).data.take 52 = (hashLocalBinary data).data ∧
        (binaryArtifactKey data p1).data.take 52 =
          (binaryArtifactKey data p2).data.take 52) ∧
    sha256.sum256 [97, 98, 99] =
      [186, 120, 22, 191, 143, 1, 207, 234, 65, 65, 64, 222,
       93, 174, 34, 35, 176, 3, 97, 163, 150, 23, 122, 156,
       180, 16, 255, 97, 242, 0, 21, 173] ∧
    hashLocalBinary [0] ≠ hashLocalBinary [1] ∧
    binaryArtifactKey [0] "/usr/bin/app" = binaryArtifactKey [0] "/home/user/app" ∧
    binaryArtifactKey [0] "/usr/bin/app" ≠ binaryArtifactKey [1] "/usr/bin/app" := by
  have hkey : ∀ (data : List Nat) (p : String),
      (binaryArtifactKey data p).data.take 52 = (hashLocalBinary data).data := by
    intro data p
    show ((hashLocalBinary data ++ "." ++ gopath.Base p ++ ".binary")).data.take 52 = _
    rw [String.data_append, String.data_append, String.data_append]
    rw [List.append_assoc, List.append_assoc]
    rw [← hashLocalBinary_length data]
    exact List.take_left _ _
  refine ⟨fun _ _ => rfl, hashLocalBinary_length, ?_, by decide, by decide, by decide,
    by decide⟩
  intro data p1 p2
  exact ⟨hkey data p1, (hkey data p1).trans (hkey data p2).symm⟩

theorem artifact_key_witness :
    (hashLocalBinary []).data.length = 52 ∧
    (binaryArtifactKey [] "/x/a").data.take 52 = (hashLocalBinary []).data :=
  ⟨artifact_key_spec.2.1 [], (artifact_key_spec.2.2.1 [] "/x/a" "/x/a").1⟩

end perf

namespace gostr

/-- Lowercase hex digit. -/
def hexDigitChar (n : Nat) : Char :=
  "0123456789abcdef".data.getD n '0'

/-- Lowercase two-digits-per-byte hex rendering (the format of
`sha256sum` output). -/
def hexRepr (bytes : List Nat) : String :=
  String.mk (bytes.flatMap (fun b => [hexDigitChar (b / 16), hexDigitChar (b % 16)]))

/-- Parse a hex character stream two digits at a time into bytes (the
`fmt.Sscanf("%02x")` loop of `getRemoteBinaryHash`). -/
def hexBytes? : List Char → Option (List Nat)
  | [] => some []
  | c1 :: c2 :: rest =>
    match hexDigitVal? c1, hexDigitVal? c2, hexBytes? rest with
    | some hi, some lo, some bs => some ((hi * 16 + lo) :: bs)
    | _, _, _ => none
  | _ => none

end gostr

namespace base64

/-- The value of a standard-alphabet base64 character. -/
def b64val? (c : Char) : Option Nat :=
  if 'A' ≤ c ∧ c ≤ 'Z' then some (c.toNat - 65)
  else if 'a' ≤ c ∧ c ≤ 'z' then some (c.toNat - 97 + 26)
  else if '0' ≤ c ∧ c ≤ '9' then some (c.toNat - 48 + 52)
  else if c = '+' then some 62
  else if c = '/' then some 63
  else none

/-- Decode four-character quanta; `=` padding is only accepted at the very
end (one or two characters). -/
def decode4 : List Char → Option (List Nat)
  | [] => some []
  | c1 :: c2 :: c3 :: c4 :: rest =>
    match b64val? c1, b64val? c2 with
    | some v1, some v2 =>
      if c3 = '=' then
        if c4 = '=' ∧ rest = [] then some [v1 * 4 + v2 / 16] else none
      else
        match b64val? c3 with
        | some v3 =>
          if c4 = '=' then
            if rest = [] then some [v1 * 4 + v2 / 16, v2 % 16 * 16 + v3 / 4] else none
          else
            match b64val? c4, decode4 rest with
            | some v4, some bs =>
              some ((v1 * 4 + v2 / 16) :: (v2 % 16 * 16 + v3 / 4) :: (v3 % 4 * 64 + v4) :: bs)
            | _, _ => none
        | none => none
    | _, _ => none
  | _ => none

/-- `base64.StdEncoding.DecodeString` (which skips line breaks, as the
remote `base64` command emits them). -/
def decodeString (s : String) : Option (List Nat) :=
  decode4 (s.data.filter (fun c => c ≠ '\n' ∧ c ≠ '\r'))

end base64

namespace perf

/-- The pure core of `getRemoteBinaryHash` on the output of the remote
`sha256sum` pipeline: trim, require 64 hex characters, parse the 32 digest
bytes, re-encode as lowercase no-padding base32. -/
def getRemoteBinaryHash (hashOutput : String) : Except String String :=
  let hexHash := gostr.trimSpace hashOutput
  if hexHash.data.length ≠ 64 then .error "invalid hash length"
  else
    match gostr.hexBytes? hexHash.data with
    | some bs => .ok (gostr.toLower (base32.encodeNoPad bs))
    | none => .error "failed to parse hash byte"

/-- The pure core of `copyBinaryFromRemote` on the output of the remote
`base64` command: decode, hash the decoded bytes locally, compare with the
digest computed on the remote end; only on agreement are the bytes handed
to `os.WriteFile` (the `.ok` payload is what gets written — on `.error`
nothing is written). -/
def copyBinaryFromRemote (base64Output expectedHash : String) :
    Except String (List Nat) :=
  match base64.decodeString (gostr.trimSpace base64Output) with
  | none => .error "failed to decode base64"
  | some data =>
    let localHash := hashLocalBinary data
    if localHash ≠ expectedHash then
      .error ("hash mismatch: expected " ++ expectedHash ++ ", got " ++ localHash)
    else .ok data

end perf

namespace gostr

theorem hexDigit_roundtrip : ∀ d, d < 16 → hexDigitVal? (hexDigitChar d) = some d := by
  decide

theorem isSpaceGo_hexDigitChar (d : Nat) : isSpaceGo (hexDigitChar d) = false := by
  by_cases h : d < 16
  · revert h
    revert d
    decide
  · unfold hexDigitChar
    rw [List.getD_eq_default]
    · rfl
    · simp at h
      simpa using h

theorem dropWhile_space_eq_self {l : List Char}
    (h : ∀ c ∈ l, isSpaceGo c = false) : l.dropWhile isSpaceGo = l := by
  cases l with
  | nil => rfl
  | cons c rest =>
    rw [List.dropWhile_cons, h c (List.mem_cons_self _ _)]
    rfl

theorem trimSpace_eq_self {s : String}
    (h : ∀ c ∈ s.data, isSpaceGo c = false) : trimSpace s = s := by
  unfold trimSpace
  rw [dropWhile_space_eq_self h, dropWhile_space_eq_self (by
    intro c hc
    exact h c (List.mem_reverse.mp hc))]
  rw [List.reverse_reverse]

theorem hexRepr_no_space (bs : List Nat) :
    ∀ c ∈ (hexRepr bs).data, isSpaceGo c = false := by
  intro c hc
  have hc2 : c ∈ bs.flatMap (fun b => [hexDigitChar (b / 16), hexDigitChar (b % 16)]) := hc
  rw [List.mem_flatMap] at hc2
  obtain ⟨b, _, hcb⟩ := hc2
  rcases List.mem_cons.mp hcb with h | hcb2
  · rw [h]
    exact isSpaceGo_hexDigitChar _
  · rcases List.mem_cons.mp hcb2 with h | h
    · rw [h]
      exact isSpaceGo_hexDigitChar _
    · cases h

theorem hexRepr_length (bs : List Nat) : (hexRepr bs).data.length = 2 * bs.length := by
  show (bs.flatMap _).length = _
  induction bs with
  | nil => rfl
  | cons b rest ih =>
    rw [List.flatMap_cons, List.length_append, ih]
    show 2 + 2 * rest.length = 2 * (rest.length + 1)
    omega

theorem hexBytes_hexRepr : ∀ bs : List Nat, (∀ b ∈ bs, b < 256) →
    hexBytes? (hexRepr bs).data = some bs := by
  intro bs
  induction bs with
  | nil => intro _; rfl
  | cons b rest ih =>
    intro h
    have hb : b < 256 := h b (List.mem_cons_self _ _)
    show hexBytes? (hexDigitChar (b / 16) :: hexDigitChar (b % 16) ::
      rest.flatMap _) = _
    show (match hexDigitVal? (hexDigitChar (b / 16)),
        hexDigitVal? (hexDigitChar (b % 16)),
        hexBytes? (rest.flatMap (fun b => [hexDigitChar (b / 16), hexDigitChar (b % 16)])) with
      | some hi, some lo, some bs => some ((hi * 16 + lo) :: bs)
      | _, _, _ => none) = some (b :: rest)
    rw [hexDigit_roundtrip (b / 16) (by omega), hexDigit_roundtrip (b % 16) (by omega)]
    have ihh := ih (fun x hx => h x (List.mem_cons.mpr (Or.inr hx)))
    rw [(by rfl : (hexRepr rest).data =
      rest.flatMap (fun b => [hexDigitChar (b / 16), hexDigitChar (b % 16)]))] at ihh
    rw [ihh]
    show some ((b / 16 * 16 + b % 16) :: rest) = some (b :: rest)
    congr 2
    omega

end gostr

namespace sha256

theorem beBytes_lt : ∀ (k n : Nat), ∀ b ∈ beBytes k n, b < 256 := by
  intro k
  induction k with
  | zero =>
    intro n b hb
    cases hb
  | succ m ih =>
    intro n b hb
    have hb2 : b ∈ beBytes m (n / 256) ++ [n % 256] := hb
    rw [List.mem_append] at hb2
    rcases hb2 with h | h
    · exact ih _ b h
    · have := List.mem_singleton.mp h
      omega

theorem digestBytes_lt (d : Digest) : ∀ b ∈ digestBytes d, b < 256 := by
  intro b hb
  have hb2 : b ∈ beBytes 4 d.a ++ beBytes 4 d.b ++ beBytes 4 d.c ++ beBytes 4 d.d ++
    beBytes 4 d.e ++ beBytes 4 d.f ++ beBytes 4 d.g ++ beBytes 4 d.h := hb
  simp only [List.mem_append] at hb2
  rcases hb2 with ((((((h | h) | h) | h) | h) | h) | h) | h <;> exact beBytes_lt 4 _ b h

theorem sum256_lt (msg : List Nat) : ∀ b ∈ sum256 msg, b < 256 := by
  unfold sum256
  exact digestBytes_lt _

end sha256

namespace perf

/-- C5: bytes accepted by `copyBinaryFromRemote` always hash to the digest
computed on the remote end (unverified bytes are never written); a decoded
payload whose local digest disagrees with the remote digest is rejected
with an error (and hence nothing is written); and both ends compute the
same digest rendering — `getRemoteBinaryHash` on the remote `sha256sum`
output of any content yields exactly the local `hashLocalBinary` of that
content. -/
theorem transfer_integrity :
    (∀ (out expected : String) (data : List Nat),
        copyBinaryFromRemote out expected = .ok data →
          hashLocalBinary data = expected ∧
          base64.decodeString (gostr.trimSpace out) = some data) ∧
    (∀ (out expected : String) (data : List Nat),
        base64.decodeString (gostr.trimSpace out) = some data →
        hashLocalBinary data ≠ expected →
        ∃ msg, copyBinaryFromRemote out expected = .error msg) ∧
    (∀ data : List Nat,
        getRemoteBinaryHash (gostr.hexRepr (sha256.sum256 data)) =
          .ok (hashLocalBinary data)) ∧
    base64.decodeString "AA==" = some [0] := by
  refine ⟨?_, ?_, ?_, by decide⟩
  · intro out expected data h
    unfold copyBinaryFromRemote at h
    cases hdec : base64.decodeString (gostr.trimSpace out) with
    | none =>
      rw [hdec] at h
      cases h
    | some d =>
      rw [hdec] at h
      have h2 : (if hashLocalBinary d ≠ expected then
          Except.error ("hash mismatch: expected " ++ expected ++ ", got " ++
            hashLocalBinary d)
          else Except.ok d) = Except.ok data := h
      by_cases hne : hashLocalBinary d ≠ expected
      · rw [if_pos hne] at h2
        cases h2
      · rw [if_neg hne] at h2
        injection h2 with he
        subst he
        exact ⟨not_not.mp hne, rfl⟩
  · intro out expected data hdec hne
    have h2 : copyBinaryFromRemote out expected =
        (if hashLocalBinary data ≠ expected then
          Except.error ("hash mismatch: expected " ++ expected ++ ", got " ++
            hashLocalBinary data)
          else Except.ok data) := by
      unfold copyBinaryFromRemote
      rw [hdec]
    rw [h2, if_pos hne]
    exact ⟨_, rfl⟩
  · intro data
    unfold getRemoteBinaryHash
    rw [gostr.trimSpace_eq_self (gostr.hexRepr_no_space _)]
    have h64 : (gostr.hexRepr (sha256.sum256 data)).data.length = 64 := by
      rw [gostr.hexRepr_length, sha256.sum256_length]
    rw [if_neg (by simp [h64])]
    rw [gostr.hexBytes_hexRepr _ (sha256.sum256_lt data)]
    rfl

set_option maxRecDepth 8000 in
theorem transfer_integrity_witness :
    (∃ msg, copyBinaryFromRemote "AA==" "" = .error msg) ∧
    getRemoteBinaryHash (gostr.hexRepr (sha256.sum256 [0])) =
      .ok (hashLocalBinary [0]) :=
  ⟨transfer_integrity.2.1 "AA==" "" [0] (by decide) (by decide),
   transfer_integrity.2.2.1 [0]⟩

end perf
